/-
Verification of the two maintenance scripts of the
ESP32-S3-SIM7670G-GPS-Tracker repository:
  * update_version.py  (version synchronizer)
  * clean_emojis.py    (emoji cleaner)

Texts are shallowly embedded as lists of characters.  The regular
expressions of the scripts are embedded as explicit scanners with the
same leftmost, non-overlapping, greedy semantics as the Python re
module on the concrete patterns involved.  The character class \d of
the patterns is modelled as the ASCII digits, and int() conversion as
decimal folding, matching the behaviour of the scripts on ASCII input.
File systems are modelled as explicit records of file contents, and
each mutating operation additionally reports the list of files it
wrote, so that write ordering and absence of writes are expressible.
-/
import Mathlib

/-- Texts are modelled as lists of characters. -/
abbrev Str := List Char

/-- Characters that the Python str.isspace predicate (and hence the
regular-expression class \s and str.strip) accepts. -/
def pyIsSpace (c : Char) : Bool :=
  [9, 10, 11, 12, 13, 28, 29, 30, 31, 32, 133, 160, 5760,
   8192, 8193, 8194, 8195, 8196, 8197, 8198, 8199, 8200, 8201, 8202,
   8232, 8233, 8239, 8287, 12288].contains c.toNat

/-- Python str.strip(): remove leading and trailing whitespace. -/
def pyStrip (s : Str) : Str :=
  ((s.dropWhile pyIsSpace).reverse.dropWhile pyIsSpace).reverse

/-- The Unicode decimal digit characters (general category Nd), as
runs of ten consecutive code points from the digit of value zero to
the digit of value nine.  The regular-expression class \d of Python
(on str patterns) matches exactly these characters, and int() values
each one as its offset in its run.  The first run is the ASCII
digits. -/
def pyNdRanges : List (Nat × Nat) :=
  [(48, 57), (1632, 1641), (1776, 1785), (1984, 1993), (2406, 2415), (2534, 2543),
   (2662, 2671), (2790, 2799), (2918, 2927), (3046, 3055), (3174, 3183), (3302, 3311),
   (3430, 3439), (3558, 3567), (3664, 3673), (3792, 3801), (3872, 3881), (4160, 4169),
   (4240, 4249), (6112, 6121), (6160, 6169), (6470, 6479), (6608, 6617), (6784, 6793),
   (6800, 6809), (6992, 7001), (7088, 7097), (7232, 7241), (7248, 7257), (42528, 42537),
   (43216, 43225), (43264, 43273), (43472, 43481), (43504, 43513), (43600, 43609), (44016, 44025),
   (65296, 65305), (66720, 66729), (68912, 68921), (69734, 69743), (69872, 69881), (69942, 69951),
   (70096, 70105), (70384, 70393), (70736, 70745), (70864, 70873), (71248, 71257), (71360, 71369),
   (71472, 71481), (71904, 71913), (72016, 72025), (72784, 72793), (73040, 73049), (73120, 73129),
   (92768, 92777), (92864, 92873), (93008, 93017), (120782, 120791), (120792, 120801), (120802, 120811),
   (120812, 120821), (120822, 120831), (123200, 123209), (123632, 123641), (125264, 125273), (130032, 130041)
  ]

/-- Python's regular-expression class \d : the character is a Unicode
decimal digit. -/
def pyIsDigit (c : Char) : Bool :=
  pyNdRanges.any (fun r => r.1 ≤ c.toNat && c.toNat ≤ r.2)

def pyDigitValAux : List (Nat × Nat) → Char → Nat
  | [], _ => 0
  | r :: rs, c =>
    if r.1 ≤ c.toNat ∧ c.toNat ≤ r.2 then c.toNat - r.1 else pyDigitValAux rs c

/-- The decimal value of a Unicode decimal digit, as used by int() on
each character of its argument (0 on a non-digit). -/
def pyDigitVal (c : Char) : Nat := pyDigitValAux pyNdRanges c

/-! ## Decimal numerals

The scripts move between version components (Python int) and their
decimal renderings (int() parsing and f-string formatting). -/

/-- Value of a list of ASCII digit characters, most significant first,
as computed by Python int() on ASCII input. -/
def digitsToNat (ds : Str) : Nat :=
  ds.foldl (fun a c => 10 * a + (c.toNat - 48)) 0

/-- Python int() on a string of Unicode decimal digits: fold the
decimal values of the characters. -/
def digitsToNatPy (ds : Str) : Nat :=
  ds.foldl (fun a c => 10 * a + pyDigitVal c) 0

/-- Fuelled decimal rendering; `natToStr` supplies enough fuel. -/
def natToStrAux : Nat → Nat → Str
  | 0, _ => []
  | fuel + 1, n =>
    if n < 10 then [Nat.digitChar n]
    else natToStrAux fuel (n / 10) ++ [Nat.digitChar (n % 10)]

/-- Decimal rendering of a natural number, as produced by Python
str() and f-string formatting of an int. -/
def natToStr (n : Nat) : Str := natToStrAux (n + 1) n

theorem natToStrAux_fuel {fuel fuel' n : Nat} (h : n < fuel) (h' : n < fuel') :
    natToStrAux fuel n = natToStrAux fuel' n := by
  induction fuel generalizing fuel' n with
  | zero => omega
  | succ fuel ih =>
    cases fuel' with
    | zero => omega
    | succ fuel' =>
      simp only [natToStrAux]
      by_cases h10 : n < 10
      · simp [h10]
      · simp only [h10, if_false]
        have hd : n / 10 < fuel := by
          have := Nat.div_lt_self (by omega : 0 < n) (by omega : 1 < 10)
          omega
        have hd' : n / 10 < fuel' := by
          have := Nat.div_lt_self (by omega : 0 < n) (by omega : 1 < 10)
          omega
        rw [ih hd hd']

/-- Characteristic equation of the decimal rendering. -/
theorem natToStr_eq (n : Nat) :
    natToStr n = if n < 10 then [Nat.digitChar n]
                 else natToStr (n / 10) ++ [Nat.digitChar (n % 10)] := by
  by_cases h10 : n < 10
  · simp [natToStr, natToStrAux, h10]
  · have hd : n / 10 < n := Nat.div_lt_self (by omega) (by omega)
    rw [if_neg h10]
    have h1 : natToStr n = natToStrAux n (n / 10) ++ [Nat.digitChar (n % 10)] := by
      simp [natToStr, natToStrAux, h10]
    rw [h1]
    congr 1
    exact natToStrAux_fuel hd (Nat.lt_succ_self _)

theorem natToStr_ne_nil (n : Nat) : natToStr n ≠ [] := by
  rw [natToStr_eq]
  by_cases h10 : n < 10 <;> simp [h10]

theorem digitChar_isDigit {n : Nat} (h : n < 10) :
    (Nat.digitChar n).isDigit = true := by
  interval_cases n <;> decide

theorem digitChar_toNat {n : Nat} (h : n < 10) :
    (Nat.digitChar n).toNat = 48 + n := by
  interval_cases n <;> decide

/-- Every character of the decimal rendering is an ASCII digit. -/
theorem natToStr_digits (n : Nat) : ∀ c ∈ natToStr n, c.isDigit = true := by
  induction n using Nat.strong_induction_on with
  | _ n ih =>
    rw [natToStr_eq]
    by_cases h10 : n < 10
    · simp only [h10, if_true, List.mem_singleton]
      rintro c rfl
      exact digitChar_isDigit h10
    · simp only [h10, if_false]
      intro c hc
      rcases List.mem_append.1 hc with h | h
      · exact ih (n / 10) (Nat.div_lt_self (by omega) (by omega)) c h
      · rcases List.mem_singleton.1 h with rfl
        exact digitChar_isDigit (Nat.mod_lt _ (by omega))

theorem digitsToNat_append (a b : Str) :
    digitsToNat (a ++ b) =
      b.foldl (fun x c => 10 * x + (c.toNat - 48)) (digitsToNat a) := by
  simp [digitsToNat, List.foldl_append]

/-- Parsing back the decimal rendering recovers the number. -/
theorem digitsToNat_natToStr (n : Nat) : digitsToNat (natToStr n) = n := by
  induction n using Nat.strong_induction_on with
  | _ n ih =>
    rw [natToStr_eq]
    by_cases h10 : n < 10
    · simp only [h10, if_true]
      simp [digitsToNat, digitChar_toNat h10]
    · simp only [h10, if_false]
      rw [digitsToNat_append, ih (n / 10) (Nat.div_lt_self (by omega) (by omega))]
      simp [digitChar_toNat (Nat.mod_lt n (by omega : 0 < 10))]
      omega

theorem natToStr_head_ne_zero {n : Nat} (h : 0 < n) :
    natToStr n ≠ [] ∧ (natToStr n).head? ≠ some '0' := by
  induction n using Nat.strong_induction_on with
  | _ n ih =>
    rw [natToStr_eq]
    by_cases h10 : n < 10
    · simp only [h10, if_true]
      refine ⟨by simp, ?_⟩
      interval_cases n <;> simp_all <;> decide
    · simp only [h10, if_false]
      have hd : n / 10 < n := Nat.div_lt_self (by omega) (by omega)
      have hdp : 0 < n / 10 := Nat.div_pos (by omega) (by omega)
      obtain ⟨h1, h2⟩ := ih (n / 10) hd hdp
      constructor
      · simp
      · cases hh : natToStr (n / 10) with
        | nil => exact absurd hh h1
        | cons c cs => simpa [hh] using (by simpa [hh] using h2)

theorem char_eq_of_toNat_eq {a b : Char} (h : a.toNat = b.toNat) : a = b := by
  apply Char.ext
  exact UInt32.ext h

theorem isDigit_toNat_bounds {c : Char} (h : c.isDigit = true) :
    48 ≤ c.toNat ∧ c.toNat ≤ 57 := by
  simp only [Char.isDigit, Bool.and_eq_true, decide_eq_true_eq] at h
  obtain ⟨h1, h2⟩ := h
  exact ⟨h1, h2⟩

/-- Reading the digit value of an ASCII digit character and rendering
it back yields the same character. -/
theorem digitChar_of_digit {c : Char} (h : c.isDigit = true) :
    Nat.digitChar (c.toNat - 48) = c := by
  obtain ⟨h1, h2⟩ := isDigit_toNat_bounds h
  apply char_eq_of_toNat_eq
  rw [digitChar_toNat (by omega)]
  omega

theorem ascii_pyIsDigit {c : Char} (h : c.isDigit = true) :
    pyIsDigit c = true := by
  obtain ⟨h1, h2⟩ := isDigit_toNat_bounds h
  apply List.any_eq_true.mpr
  refine ⟨(48, 57), ?_, ?_⟩
  · rw [pyNdRanges]
    exact List.mem_cons_self _ _
  · simp only [Bool.and_eq_true, decide_eq_true_eq]
    exact ⟨h1, h2⟩

theorem pyDigitValAux_cons (r : Nat × Nat) (rs : List (Nat × Nat)) (c : Char) :
    pyDigitValAux (r :: rs) c
      = if r.1 ≤ c.toNat ∧ c.toNat ≤ r.2 then c.toNat - r.1
        else pyDigitValAux rs c := rfl

theorem pyDigitVal_ascii {c : Char} (h : c.isDigit = true) :
    pyDigitVal c = c.toNat - 48 := by
  obtain ⟨h1, h2⟩ := isDigit_toNat_bounds h
  show pyDigitValAux pyNdRanges c = _
  rw [pyNdRanges, pyDigitValAux_cons]
  rw [if_pos ⟨h1, h2⟩]

theorem foldl_pyDigit_ascii :
    ∀ (ds : Str), (∀ c ∈ ds, c.isDigit = true) → ∀ (acc : Nat),
      ds.foldl (fun a c => 10 * a + pyDigitVal c) acc
        = ds.foldl (fun a c => 10 * a + (c.toNat - 48)) acc := by
  intro ds
  induction ds with
  | nil => intro _ _; rfl
  | cons c cs ih =>
    intro h acc
    simp only [List.foldl_cons]
    rw [pyDigitVal_ascii (h c (List.mem_cons_self _ _))]
    exact ih (fun x hx => h x (List.mem_cons_of_mem _ hx)) _

/-- On ASCII digit strings the two int() models agree. -/
theorem digitsToNatPy_ascii {ds : Str} (h : ∀ c ∈ ds, c.isDigit = true) :
    digitsToNatPy ds = digitsToNat ds :=
  foldl_pyDigit_ascii ds h 0

theorem foldl_digits_le (t : Str) (acc : Nat) :
    acc ≤ t.foldl (fun a c => 10 * a + (c.toNat - 48)) acc := by
  induction t generalizing acc with
  | nil => simp
  | cons c cs ih =>
    simp only [List.foldl_cons]
    calc acc ≤ 10 * acc + (c.toNat - 48) := by omega
    _ ≤ _ := ih _

/-- A digit string without a leading zero has a positive value. -/
theorem digitsToNat_pos {ds : Str} (hne : ds ≠ [])
    (hd : ∀ c ∈ ds, c.isDigit = true) (hz : ds.head? ≠ some '0') :
    1 ≤ digitsToNat ds := by
  cases ds with
  | nil => exact absurd rfl hne
  | cons c cs =>
    have hcd : c.isDigit = true := hd c (List.mem_cons_self _ _)
    obtain ⟨h48, h57⟩ := isDigit_toNat_bounds hcd
    have hc0 : c ≠ '0' := by
      intro h
      exact hz (by simp [h])
    have hgt : 49 ≤ c.toNat := by
      rcases Nat.lt_or_ge c.toNat 49 with h | h
      · exfalso
        have : c.toNat = 48 := by omega
        exact hc0 (char_eq_of_toNat_eq (by simpa using this))
      · exact h
    have : 1 ≤ c.toNat - 48 := by omega
    calc 1 ≤ 10 * 0 + (c.toNat - 48) := by omega
    _ ≤ _ := foldl_digits_le cs _

theorem digitsToNat_snoc (a : Str) (c : Char) :
    digitsToNat (a ++ [c]) = 10 * digitsToNat a + (c.toNat - 48) := by
  rw [digitsToNat_append]
  simp

/-- Canonical digit strings (nonempty, all digits, no leading zero
except for the string 0 itself) are recovered by rendering their
value. -/
theorem natToStr_digitsToNat {ds : Str} (hne : ds ≠ [])
    (hd : ∀ c ∈ ds, c.isDigit = true)
    (hz : ds.head? = some '0' → ds = ['0']) :
    natToStr (digitsToNat ds) = ds := by
  induction ds using List.reverseRecOn with
  | nil => exact absurd rfl hne
  | append_singleton a c ih =>
    have hcd : c.isDigit = true := hd c (by simp)
    obtain ⟨h48, h57⟩ := isDigit_toNat_bounds hcd
    cases a with
    | nil =>
      simp only [List.nil_append]
      have hval : digitsToNat [c] = c.toNat - 48 := by
        simp [digitsToNat]
      rw [hval, natToStr_eq, if_pos (by omega : c.toNat - 48 < 10)]
      rw [digitChar_of_digit hcd]
    | cons a0 a' =>
      have hane : a0 :: a' ≠ [] := by simp
      have had : ∀ x ∈ a0 :: a', x.isDigit = true := by
        intro x hx
        exact hd x (List.mem_append_left _ hx)
      have haz : (a0 :: a').head? ≠ some '0' := by
        intro h
        simp only [List.head?_cons, Option.some.injEq] at h
        have : ((a0 :: a') ++ [c]).head? = some '0' := by simp [h]
        have := hz this
        simp at this
      have hv1 : 1 ≤ digitsToNat (a0 :: a') := digitsToNat_pos hane had haz
      have ihz : (a0 :: a').head? = some '0' → a0 :: a' = ['0'] := by
        intro h
        exact absurd h haz
      have iha := ih hane had ihz
      rw [digitsToNat_snoc]
      set v := digitsToNat (a0 :: a') with hv
      have hge : ¬(10 * v + (c.toNat - 48) < 10) := by omega
      rw [natToStr_eq, if_neg hge]
      have hdiv : (10 * v + (c.toNat - 48)) / 10 = v := by omega
      have hmod : (10 * v + (c.toNat - 48)) % 10 = c.toNat - 48 := by omega
      rw [hdiv, hmod, iha, digitChar_of_digit hcd]

/-! ## update_version.py : pure version functions -/

/-- The literal ASCII reading of the spec pattern (ASCII digits, dot,
ASCII digits, dot, ASCII digits, end of string, nothing else).  This
spec-side scanner only states the side condition of the amended
round-trip claim; the matcher the program runs is versionComponents
below, which is wider: the class \d of re matches any Unicode decimal
digit, and the trailing anchor also accepts one final newline. -/
def specComponents (s : Str) : Option (Str × Str × Str) :=
  let d1 := s.takeWhile Char.isDigit
  match s.dropWhile Char.isDigit with
  | '.' :: t1 =>
    let d2 := t1.takeWhile Char.isDigit
    match t1.dropWhile Char.isDigit with
    | '.' :: t2 =>
      let d3 := t2.takeWhile Char.isDigit
      match t2.dropWhile Char.isDigit with
      | [] => if d1 ≠ [] ∧ d2 ≠ [] ∧ d3 ≠ [] then some (d1, d2, d3) else none
      | _ :: _ => none
    | _ => none
  | _ => none

/-- The three components matched by re.match of the anchored pattern
of parse_version: \d+ runs of Unicode decimal digits separated by the
two literal dots, where the $ anchor matches at the end of the string
or just before one final newline. -/
def versionComponents (s : Str) : Option (Str × Str × Str) :=
  let body := if s.getLast? = some '\n' then s.dropLast else s
  let d1 := body.takeWhile pyIsDigit
  match body.dropWhile pyIsDigit with
  | '.' :: t1 =>
    let d2 := t1.takeWhile pyIsDigit
    match t1.dropWhile pyIsDigit with
    | '.' :: t2 =>
      let d3 := t2.takeWhile pyIsDigit
      match t2.dropWhile pyIsDigit with
      | [] => if d1 ≠ [] ∧ d2 ≠ [] ∧ d3 ≠ [] then some (d1, d2, d3) else none
      | _ :: _ => none
    | _ => none
  | _ => none

/-- parse_version of update_version.py: match the version string with
re.match against the anchored three-component pattern and convert
each matched component with int(); None models the raised
ValueError. -/
def parse_version (s : Str) : Option (Nat × Nat × Nat) :=
  (versionComponents s).map
    (fun t => (digitsToNatPy t.1, digitsToNatPy t.2.1, digitsToNatPy t.2.2))

/-- Serialization of a version triple by the f-strings of
update_version.py. -/
def versionToStr (ma mi pa : Nat) : Str :=
  natToStr ma ++ '.' :: natToStr mi ++ '.' :: natToStr pa

/-- bump_version of update_version.py.  None models a raised
ValueError (either from parse_version or from an unknown bump type). -/
def bump_version (current_version : Str) (bump_type : Str) : Option Str :=
  (parse_version current_version).bind fun t =>
    if bump_type = "major".data then some (versionToStr (t.1 + 1) 0 0)
    else if bump_type = "minor".data then some (versionToStr t.1 (t.2.1 + 1) 0)
    else if bump_type = "patch".data then some (versionToStr t.1 t.2.1 (t.2.2 + 1))
    else none

example : parse_version "1.2.3".data = some (1, 2, 3) := by decide
example : parse_version "1.2".data = none := by decide
example : parse_version "1.2.x".data = none := by decide
example : parse_version "v1.2.3".data = none := by decide
example : parse_version "01.2.3".data = some (1, 2, 3) := by decide
example : bump_version "1.2.3".data "major".data = some "2.0.0".data := by decide
example : bump_version "1.2.3".data "minor".data = some "1.3.0".data := by decide
example : bump_version "1.2.3".data "patch".data = some "1.2.4".data := by decide

example : parse_version "1.2.3\n".data = some (1, 2, 3) := by decide

example : parse_version "1.2.3\n\n".data = none := by decide

example : parse_version "\u0661.\u0662.\u0663".data = some (1, 2, 3) := by decide

/-- A version component has no leading zero: it is the single digit 0
or does not start with 0. -/
def componentNoLeadZero (d : Str) : Bool :=
  d.head? != some '0' || d == ['0']

/-- Every component of the version string is a digit string without a
leading zero (false when the string does not match the version
pattern at all). -/
def noLeadingZeros (s : Str) : Bool :=
  match specComponents s with
  | some (d1, d2, d3) =>
      componentNoLeadZero d1 && componentNoLeadZero d2 && componentNoLeadZero d3
  | none => false

theorem specComponents_inv {s d1 d2 d3 : Str}
    (h : specComponents s = some (d1, d2, d3)) :
    s = d1 ++ '.' :: d2 ++ '.' :: d3 ∧
    d1 ≠ [] ∧ d2 ≠ [] ∧ d3 ≠ [] ∧
    (∀ c ∈ d1, c.isDigit = true) ∧ (∀ c ∈ d2, c.isDigit = true) ∧
    (∀ c ∈ d3, c.isDigit = true) := by
  simp only [specComponents] at h
  split at h
  case _ t1 heq1 =>
    split at h
    case _ t2 heq2 =>
      split at h
      case _ heq3 =>
        split at h
        case isTrue hcond =>
          obtain ⟨h1, h2, h3⟩ := hcond
          injection h with h
          injection h with e1 h
          injection h with e2 e3
          subst e1
          subst e2
          subst e3
          refine ⟨?_, h1, h2, h3, ?_, ?_, ?_⟩
          · have hs := List.takeWhile_append_dropWhile Char.isDigit s
            have ht1 := List.takeWhile_append_dropWhile Char.isDigit t1
            have ht2 := List.takeWhile_append_dropWhile Char.isDigit t2
            rw [heq1] at hs
            rw [heq2] at ht1
            rw [heq3, List.append_nil] at ht2
            simp only [List.append_assoc, List.cons_append]
            rw [ht2, ht1, hs]
          · intro c hc
            exact List.mem_takeWhile_imp hc
          · intro c hc
            exact List.mem_takeWhile_imp hc
          · intro c hc
            exact List.mem_takeWhile_imp hc
        case isFalse => exact absurd h (by simp)
      case _ => exact absurd h (by simp)
    case _ => exact absurd h (by simp)
  case _ => exact absurd h (by simp)

/-- A string the literal ASCII pattern accepts is matched identically
by the matcher the program runs: the wider digit class cannot extend
any component (the next character is a dot or the end), and the last
character is an ASCII digit, so no trailing newline is stripped. -/
theorem specComponents_imp_py {s d1 d2 d3 : Str}
    (h : specComponents s = some (d1, d2, d3)) :
    versionComponents s = some (d1, d2, d3) := by
  obtain ⟨hshape, h1, h2, h3, hd1, hd2, hd3⟩ := specComponents_inv h
  have hq1 : ∀ c ∈ d1, pyIsDigit c = true := fun c hc => ascii_pyIsDigit (hd1 c hc)
  have hq2 : ∀ c ∈ d2, pyIsDigit c = true := fun c hc => ascii_pyIsDigit (hd2 c hc)
  have hq3 : ∀ c ∈ d3, pyIsDigit c = true := fun c hc => ascii_pyIsDigit (hd3 c hc)
  obtain ⟨x, hx⟩ : ∃ x, d3.getLast? = some x := by
    have h1s : d3.getLast?.isSome := List.getLast?_isSome.mpr h3
    exact Option.isSome_iff_exists.mp h1s
  have hxd : x.isDigit = true := hd3 x (List.mem_of_getLast?_eq_some hx)
  have hcd3 : ('.' :: d3).getLast? = some x := by
    rw [show ('.' :: d3) = ['.'] ++ d3 from rfl, List.getLast?_append, hx]
    rfl
  have hlast_ne : ¬ s.getLast? = some '\n' := by
    rw [hshape, List.getLast?_append, hcd3]
    intro hh
    have hxn : x = '\n' := Option.some.inj hh
    rw [hxn] at hxd
    exact absurd hxd (by decide)
  have hdot : pyIsDigit '.' = false := by decide
  have e1 : List.takeWhile pyIsDigit (d1 ++ '.' :: (d2 ++ '.' :: d3)) = d1 := by
    rw [List.takeWhile_append_of_pos hq1, List.takeWhile_cons]
    simp [hdot]
  have e2 : List.dropWhile pyIsDigit (d1 ++ '.' :: (d2 ++ '.' :: d3))
      = '.' :: (d2 ++ '.' :: d3) := by
    rw [List.dropWhile_append_of_pos hq1, List.dropWhile_cons]
    simp [hdot]
  have e3 : List.takeWhile pyIsDigit (d2 ++ '.' :: d3) = d2 := by
    rw [List.takeWhile_append_of_pos hq2, List.takeWhile_cons]
    simp [hdot]
  have e4 : List.dropWhile pyIsDigit (d2 ++ '.' :: d3) = '.' :: d3 := by
    rw [List.dropWhile_append_of_pos hq2, List.dropWhile_cons]
    simp [hdot]
  have e5 : List.takeWhile pyIsDigit d3 = d3 := List.takeWhile_eq_self_iff.mpr hq3
  have e6 : List.dropWhile pyIsDigit d3 = [] := List.dropWhile_eq_nil_iff.mpr hq3
  have hsr : s = d1 ++ '.' :: (d2 ++ '.' :: d3) := by
    rw [hshape]
    simp [List.append_assoc]
  simp only [versionComponents]
  rw [if_neg hlast_ne, hsr]
  simp [e1, e2, e3, e4, e5, e6, h1, h2, h3]

theorem componentNoLeadZero_head {d : Str} (h : componentNoLeadZero d = true) :
    d.head? = some '0' → d = ['0'] := by
  intro hh
  simp only [componentNoLeadZero, Bool.or_eq_true, bne_iff_ne, ne_eq,
    beq_iff_eq] at h
  rcases h with h | h
  · exact absurd hh h
  · exact h

theorem bump_version_eq {s : Str} {a b c : Nat}
    (h : parse_version s = some (a, b, c)) :
    bump_version s "major".data = some (versionToStr (a + 1) 0 0) ∧
    bump_version s "minor".data = some (versionToStr a (b + 1) 0) ∧
    bump_version s "patch".data = some (versionToStr a b (c + 1)) := by
  refine ⟨?_, ?_, ?_⟩ <;> (rw [bump_version, h]; rfl)

/-- C2: for every version string that parses as a triple
(major, minor, patch), bump_version with kind major returns the
serialization of (major+1, 0, 0), with kind minor returns
(major, minor+1, 0), and with kind patch returns
(major, minor, patch+1). -/
theorem bump_version_components {s : Str} {a b c : Nat}
    (h : parse_version s = some (a, b, c)) :
    bump_version s "major".data = some (versionToStr (a + 1) 0 0) ∧
    bump_version s "minor".data = some (versionToStr a (b + 1) 0) ∧
    bump_version s "patch".data = some (versionToStr a b (c + 1)) :=
  bump_version_eq h

/-- Witness for C2 at the version 1.2.3: bumping yields 2.0.0, 1.3.0
and 1.2.4 respectively. -/
theorem bump_version_components_witness :
    bump_version "1.2.3".data "major".data = some "2.0.0".data ∧
    bump_version "1.2.3".data "minor".data = some "1.3.0".data ∧
    bump_version "1.2.3".data "patch".data = some "1.2.4".data := by
  obtain ⟨h1, h2, h3⟩ := @bump_version_components "1.2.3".data 1 2 3 (by decide)
  refine ⟨?_, ?_, ?_⟩
  · rw [h1]
    decide
  · rw [h2]
    decide
  · rw [h3]
    decide

/-- C3 counterexample: the version string 01.2.3 matches the pattern
of parse_version, but parsing and re-serializing yields 1.2.3, which
is not identical to the input. -/
theorem parse_format_roundtrip_cex :
    parse_version "01.2.3".data = some (1, 2, 3) ∧
    versionToStr 1 2 3 = "1.2.3".data ∧
    "1.2.3".data ≠ "01.2.3".data := by
  refine ⟨by decide, by decide, by decide⟩

/-- C3 (amended): for every version string matching the pattern whose
components carry no leading zeros, parsing with parse_version and
re-serializing yields a string identical to the input. -/
theorem parse_format_roundtrip_canonical {s : Str} {a b c : Nat}
    (h : parse_version s = some (a, b, c)) (hz : noLeadingZeros s = true) :
    versionToStr a b c = s := by
  cases hsc : specComponents s with
  | none =>
    exfalso
    simp only [noLeadingZeros, hsc] at hz
    exact absurd hz (by simp)
  | some tt =>
    obtain ⟨d1, d2, d3⟩ := tt
    have hpy : versionComponents s = some (d1, d2, d3) := specComponents_imp_py hsc
    have hp2 : parse_version s
        = some (digitsToNatPy d1, digitsToNatPy d2, digitsToNatPy d3) := by
      rw [parse_version, hpy]
      rfl
    rw [hp2] at h
    have hx := Option.some.inj h
    rw [Prod.mk.injEq, Prod.mk.injEq] at hx
    obtain ⟨ha, hb, hcv⟩ := hx
    obtain ⟨hshape, h1, h2, h3, hd1, hd2, hd3⟩ := specComponents_inv hsc
    simp only [noLeadingZeros, hsc, Bool.and_eq_true] at hz
    obtain ⟨⟨hz1, hz2⟩, hz3⟩ := hz
    rw [← ha, ← hb, ← hcv]
    rw [versionToStr, digitsToNatPy_ascii hd1, digitsToNatPy_ascii hd2,
      digitsToNatPy_ascii hd3]
    rw [natToStr_digitsToNat h1 hd1 (componentNoLeadZero_head hz1),
      natToStr_digitsToNat h2 hd2 (componentNoLeadZero_head hz2),
      natToStr_digitsToNat h3 hd3 (componentNoLeadZero_head hz3)]
    exact hshape.symm

/-- Witness for C3 (amended) at the version 1.2.3. -/
theorem parse_format_roundtrip_canonical_witness :
    parse_version "1.2.3".data = some (1, 2, 3) ∧
    noLeadingZeros "1.2.3".data = true ∧
    versionToStr 1 2 3 = "1.2.3".data := by
  refine ⟨by decide, by decide,
    parse_format_roundtrip_canonical (by decide) (by decide)⟩

/-! ## Substitution scanner

re.sub with the concrete patterns of the two scripts, and str.replace,
rewrite their input by scanning left to right: at each position the
pattern either matches (greedily, and for these patterns without any
ambiguity), in which case the replacement is emitted and the scan
resumes after the matched text, or the scan emits the current
character and advances by one.  A step function describes one match
attempt: it returns the replacement text together with the number of
characters the match consumed (positive for every pattern involved
here). -/

/-- Scanner worker; the counter is the number of already-consumed
characters still to be skipped. -/
def scanAux (step : Str → Option (Str × Nat)) : Str → Nat → Str
  | [], _ => []
  | _ :: cs, k + 1 => scanAux step cs k
  | c :: cs, 0 =>
    match step (c :: cs) with
    | some (o, n) => o ++ scanAux step cs (n - 1)
    | none => c :: scanAux step cs 0

/-- Leftmost, non-overlapping, global substitution driven by a step
function. -/
def scan (step : Str → Option (Str × Nat)) (s : Str) : Str := scanAux step s 0

theorem scanAux_skip (step : Str → Option (Str × Nat)) :
    ∀ (s : Str) (k : Nat), scanAux step s k = scanAux step (s.drop k) 0 := by
  intro s
  induction s with
  | nil => intro k; simp [scanAux]
  | cons c cs ih =>
    intro k
    cases k with
    | zero => simp
    | succ k => simpa [scanAux] using ih k

theorem scan_nil (step : Str → Option (Str × Nat)) : scan step [] = [] := rfl

theorem scan_cons_match {step : Str → Option (Str × Nat)} {c : Char} {cs o : Str}
    {n : Nat} (h : step (c :: cs) = some (o, n)) :
    scan step (c :: cs) = o ++ scan step (cs.drop (n - 1)) := by
  simp only [scan, scanAux, h]
  rw [scanAux_skip]

theorem scan_cons_nomatch {step : Str → Option (Str × Nat)} {c : Char} {cs : Str}
    (h : step (c :: cs) = none) :
    scan step (c :: cs) = c :: scan step cs := by
  simp only [scan, scanAux, h]

/-- A position of the text where the step function matches exists. -/
def hasMatchB (step : Str → Option (Str × Nat)) : Str → Bool
  | [] => false
  | c :: cs => (step (c :: cs)).isSome || hasMatchB step cs

/-- A text in which the pattern never matches is left unchanged by the
substitution. -/
theorem scan_id_of_no_match {step : Str → Option (Str × Nat)} {s : Str}
    (h : hasMatchB step s = false) : scan step s = s := by
  induction s with
  | nil => rfl
  | cons c cs ih =>
    simp only [hasMatchB, Bool.or_eq_false_iff] at h
    obtain ⟨h1, h2⟩ := h
    rw [scan_cons_nomatch (Option.not_isSome_iff_eq_none.mp (by simp [h1])), ih h2]

/-! ## update_version.py : the propagation targets

update_version_h rewrites version.h with four re.sub calls, one per
directive; update_readme rewrites the README version badge. -/

def majorPat : Str := "#define PROJECT_VERSION_MAJOR ".data

def minorPat : Str := "#define PROJECT_VERSION_MINOR ".data

def patchPat : Str := "#define PROJECT_VERSION_PATCH ".data

def stringPat : Str := "#define PROJECT_VERSION_STRING \"".data

/-- Match of the pattern pat ++ \d+ at the current position, replaced
by pat followed by the decimal rendering of the new component; \d+ is
a run of Unicode decimal digits, as re matches it. -/
def stepDefineNat (pat : Str) (newNum : Nat) (s : Str) : Option (Str × Nat) :=
  if pat.isPrefixOf s then
    let ds := (s.drop pat.length).takeWhile pyIsDigit
    if ds.isEmpty then none
    else some (pat ++ natToStr newNum, pat.length + ds.length)
  else none

/-- Match of the string directive pattern (fixed prefix including the
opening quote, then any run of non-quote characters, then a closing
quote), replaced by the directive carrying the new version string. -/
def stepDefineStr (newv : Str) (s : Str) : Option (Str × Nat) :=
  if stringPat.isPrefixOf s then
    let rest := s.drop stringPat.length
    let mid := rest.takeWhile (fun c => c != '"')
    match rest.dropWhile (fun c => c != '"') with
    | '"' :: _ =>
        some (stringPat ++ newv ++ [ '"' ], stringPat.length + mid.length + 1)
    | _ => none
  else none

/-- The four substitutions of update_version_h, applied in source
order (major, minor, patch, then the string directive). -/
def update_version_h_content (ma mi pa : Nat) (v : Str) (content : Str) : Str :=
  scan (stepDefineStr v)
    (scan (stepDefineNat patchPat pa)
      (scan (stepDefineNat minorPat mi)
        (scan (stepDefineNat majorPat ma) content)))

def badgePre : Str := "[![Version](https://img.shields.io/badge/version-".data

def badgeSuf : Str := "-blue.svg)]".data

/-- Match of the README version badge pattern, replaced by the badge
carrying the new version string. -/
def stepBadge (newv : Str) (s : Str) : Option (Str × Nat) :=
  if badgePre.isPrefixOf s then
    let rest := s.drop badgePre.length
    let mid := rest.takeWhile (fun c => c != '-')
    if mid.isEmpty then none
    else if badgeSuf.isPrefixOf (rest.drop mid.length) then
      some (badgePre ++ newv ++ badgeSuf,
        badgePre.length + mid.length + badgeSuf.length)
    else none
  else none

def update_readme_content (v : Str) (content : Str) : Str :=
  scan (stepBadge v) content

/-! ## update_version.py : file system model

The three files the script touches are modelled explicitly; None
models an absent file, whose read raises an IOError.  Every mutating
operation returns the new file system together with the list of files
it wrote, in order, and the error that aborted it, if any. -/

structure FileState where
  version_file : Option Str
  version_h : Option Str
  readme : Option Str
deriving DecidableEq

inductive FileId where
  | versionFile
  | versionH
  | readme
deriving DecidableEq

inductive RunError where
  | formatError (s : Str)
  | ioError
deriving DecidableEq

/-- read_current_version: the stripped VERSION content, or the default
0.0.0 when the file does not exist. -/
def read_current_version (st : FileState) : Str :=
  match st.version_file with
  | some content => pyStrip content
  | none => "0.0.0".data

/-- update_version_file: VERSION.write_text(new_version + newline). -/
def update_version_file (v : Str) (st : FileState) : FileState :=
  { st with version_file := some (v ++ [ '\n' ]) }

def update_version_h (v : Str) (st : FileState) :
    FileState × List FileId × Option RunError :=
  match parse_version v with
  | none => (st, [], some (RunError.formatError v))
  | some t =>
    match st.version_h with
    | none => (st, [], some RunError.ioError)
    | some content =>
      ({ st with
          version_h := some (update_version_h_content t.1 t.2.1 t.2.2 v content) },
       [FileId.versionH], none)

def update_readme (v : Str) (st : FileState) :
    FileState × List FileId × Option RunError :=
  match st.readme with
  | none => (st, [], some RunError.ioError)
  | some content =>
    ({ st with readme := some (update_readme_content v content) },
     [FileId.readme], none)

/-- update_all_files: VERSION first, then version.h, then README; an
uncaught error in a later step aborts with the earlier writes kept. -/
def update_all_files (v : Str) (st : FileState) :
    FileState × List FileId × Option RunError :=
  let st1 := update_version_file v st
  match update_version_h v st1 with
  | (st2, w2, none) =>
    match update_readme v st2 with
    | (st3, w3, e3) => (st3, FileId.versionFile :: w2 ++ w3, e3)
  | (st2, w2, some e) => (st2, FileId.versionFile :: w2, some e)

/-- show_version_info: read the current version and print it, its
components, and the three possible next versions. -/
def show_version_info (st : FileState) : FileState × List Str × Option RunError :=
  let current := read_current_version st
  match parse_version current with
  | none => (st, [], some (RunError.formatError current))
  | some t =>
    match bump_version current "major".data, bump_version current "minor".data,
          bump_version current "patch".data with
    | some b1, some b2, some b3 =>
      (st,
       ["Current Version: ".data ++ current,
        "  Major: ".data ++ natToStr t.1,
        "  Minor: ".data ++ natToStr t.2.1,
        "  Patch: ".data ++ natToStr t.2.2,
        "Next versions would be:".data,
        "  Major: ".data ++ b1,
        "  Minor: ".data ++ b2,
        "  Patch: ".data ++ b3], none)
    | _, _, _ => (st, [], some (RunError.formatError current))

/-- The parsed command line: the fields model args.version, args.bump
and args.show of the argparse result. -/
structure Args where
  versionArg : Option Str
  bumpArg : Option Str
  showFlag : Bool

/-- Python truthiness of an optional string option: None and the empty
string are falsy. -/
def pyTruthyStr : Option Str → Bool
  | none => false
  | some s => !s.isEmpty

/-- The elif args.bump branch of main. -/
def mainBumpBranch (args : Args) (st : FileState) :
    FileState × List FileId × Option RunError :=
  if pyTruthyStr args.bumpArg then
    match args.bumpArg with
    | some b =>
      let current := read_current_version st
      match bump_version current b with
      | none => (st, [], some (RunError.formatError current))
      | some nv => update_all_files nv st
    | none => (st, [], none)
  else (st, [], none)

/-- main of update_version.py on parsed arguments: the if args.show,
elif args.version, elif args.bump chain. -/
def mainRun (args : Args) (st : FileState) :
    FileState × List FileId × Option RunError :=
  if args.showFlag then
    match show_version_info st with
    | (st1, _, e) => (st1, [], e)
  else if pyTruthyStr args.versionArg then
    match args.versionArg with
    | some v =>
      match parse_version v with
      | none => (st, [], some (RunError.formatError v))
      | some _ => update_all_files v st
    | none => (st, [], none)
  else mainBumpBranch args st

/-- A version.h content of the expected shape, used for concrete
instantiations. -/
def sampleVersionH : Str :=
  ("#define PROJECT_VERSION_MAJOR 1\n" ++
   "#define PROJECT_VERSION_MINOR 0\n" ++
   "#define PROJECT_VERSION_PATCH 0\n" ++
   "#define PROJECT_VERSION_STRING \"1.0.0\"\n").data

/-- A README content carrying the version badge, used for concrete
instantiations. -/
def sampleReadme : Str :=
  "[![Version](https://img.shields.io/badge/version-1.0.0-blue.svg)]\n".data

/-- A complete checkout at version 1.0.0. -/
def st0 : FileState :=
  { version_file := some "1.0.0\n".data
    version_h := some sampleVersionH
    readme := some sampleReadme }

example : update_version_h_content 2 0 0 "2.0.0".data
    "#define PROJECT_VERSION_MAJOR 1\nint x;".data
    = "#define PROJECT_VERSION_MAJOR 2\nint x;".data := by decide

/-- C1 counterexample: the empty string does not match the version
pattern, yet the set-explicit invocation with it raises no error at
all (the empty string is falsy in the elif chain of main), so no
ValueError is raised; no file is written either. -/
theorem set_empty_version_cex :
    parse_version [] = none ∧
    mainRun { versionArg := some [], bumpArg := none, showFlag := false } st0
      = (st0, [], none) := by
  exact ⟨rfl, rfl⟩

/-- C1 (amended): for every nonempty version string that does not
match the three-component numeric pattern, the set-explicit invocation
stops with a format error, leaves every file unchanged and writes
nothing; for the empty string the mode is silently skipped (the
argparse value is falsy), and likewise nothing is written. -/
theorem set_invalid_version_rejected (v : Str) (st : FileState)
    (h : parse_version v = none) :
    (v ≠ [] →
      mainRun { versionArg := some v, bumpArg := none, showFlag := false } st
        = (st, [], some (RunError.formatError v))) ∧
    (v = [] →
      mainRun { versionArg := some v, bumpArg := none, showFlag := false } st
        = (st, [], none)) := by
  constructor
  · intro hne
    have ht : pyTruthyStr (some v) = true := by
      simp [pyTruthyStr, List.isEmpty_iff, hne]
    simp [mainRun, ht, h]
  · rintro rfl
    rfl

/-- Witness for C1 (amended) at the malformed version v1.2.3. -/
theorem set_invalid_version_rejected_witness :
    mainRun { versionArg := some "v1.2.3".data, bumpArg := none,
              showFlag := false } st0
      = (st0, [], some (RunError.formatError "v1.2.3".data)) :=
  (set_invalid_version_rejected "v1.2.3".data st0 (by decide)).1 (by decide)

theorem update_all_files_order_aux (v : Str) (st : FileState) (t : Nat × Nat × Nat)
    (h : parse_version v = some t) :
    ((update_all_files v st).1.version_file = some (v ++ [ '\n' ])) ∧
    ((update_all_files v st).2.1.head? = some FileId.versionFile) ∧
    (∀ hc rc, st.version_h = some hc → st.readme = some rc →
      (update_all_files v st).2.1
        = [FileId.versionFile, FileId.versionH, FileId.readme]) ∧
    (st.version_h = none →
      update_all_files v st =
        ({ st with version_file := some (v ++ [ '\n' ]) },
         [FileId.versionFile], some RunError.ioError)) := by
  cases hvh : st.version_h with
  | none =>
    simp [update_all_files, update_version_file, update_version_h, h, hvh]
  | some hc =>
    cases hrm : st.readme with
    | none =>
      simp [update_all_files, update_version_file, update_version_h,
        update_readme, h, hvh, hrm]
    | some rc =>
      simp [update_all_files, update_version_file, update_version_h,
        update_readme, h, hvh, hrm]

/-- C4: for every validated new version, propagation writes the
canonical store first (its new content is the version plus a trailing
newline, and it is the first write), the constants file and the
documentation file only afterwards and in that order, and when the
constants file is missing the run aborts with the canonical store
already updated and the other two files untouched. -/
theorem update_all_files_order (v : Str) (st : FileState) (t : Nat × Nat × Nat)
    (h : parse_version v = some t) :
    ((update_all_files v st).1.version_file = some (v ++ [ '\n' ])) ∧
    ((update_all_files v st).2.1.head? = some FileId.versionFile) ∧
    (∀ hc rc, st.version_h = some hc → st.readme = some rc →
      (update_all_files v st).2.1
        = [FileId.versionFile, FileId.versionH, FileId.readme]) ∧
    (st.version_h = none →
      update_all_files v st =
        ({ st with version_file := some (v ++ [ '\n' ]) },
         [FileId.versionFile], some RunError.ioError)) :=
  update_all_files_order_aux v st t h

/-- The checkout st0 with the constants file missing. -/
def stMissingH : FileState :=
  { version_file := some "1.0.0\n".data
    version_h := none
    readme := some sampleReadme }

/-- Witness for C4: updating to 1.0.1 with version.h missing updates
the canonical store, then aborts, leaving the other files untouched. -/
theorem update_all_files_order_witness :
    ((update_all_files "1.0.1".data stMissingH).1.version_file
      = some ("1.0.1".data ++ [ '\n' ])) ∧
    update_all_files "1.0.1".data stMissingH =
      ({ stMissingH with version_file := some ("1.0.1".data ++ [ '\n' ]) },
       [FileId.versionFile], some RunError.ioError) := by
  have hh := update_all_files_order "1.0.1".data stMissingH (1, 0, 1) (by decide)
  exact ⟨hh.1, hh.2.2.2 rfl⟩

theorem show_version_info_fst (st : FileState) : (show_version_info st).1 = st := by
  rw [show_version_info]
  split
  · rfl
  · split <;> rfl

/-- C9: show mode mutates nothing: the resulting file system is the
input one, no file is written, and when the stored version parses the
printed lines are the current version, its three components, and the
three possible next versions. -/
theorem show_mode_no_mutation (st : FileState) :
    (mainRun { versionArg := none, bumpArg := none, showFlag := true } st).1 = st ∧
    (mainRun { versionArg := none, bumpArg := none, showFlag := true } st).2.1 = [] ∧
    (∀ a b c, parse_version (read_current_version st) = some (a, b, c) →
      (show_version_info st).2.1 =
        ["Current Version: ".data ++ read_current_version st,
         "  Major: ".data ++ natToStr a,
         "  Minor: ".data ++ natToStr b,
         "  Patch: ".data ++ natToStr c,
         "Next versions would be:".data,
         "  Major: ".data ++ versionToStr (a + 1) 0 0,
         "  Minor: ".data ++ versionToStr a (b + 1) 0,
         "  Patch: ".data ++ versionToStr a b (c + 1)] ∧
      (show_version_info st).2.2 = none) := by
  refine ⟨?_, ?_, ?_⟩
  · show (match show_version_info st with | (st1, _, e) => (st1, [], e)).1 = st
    have := show_version_info_fst st
    cases hse : show_version_info st with
    | mk st1 rest => simpa [hse] using this
  · show (match show_version_info st with | (st1, _, e) => (st1, [], e)).2.1 = []
    cases hse : show_version_info st with
    | mk st1 rest => cases rest with | mk l e => rfl
  · intro a b c hp
    obtain ⟨hb1, hb2, hb3⟩ := bump_version_eq hp
    rw [show_version_info]
    rw [hp, hb1, hb2, hb3]
    exact ⟨rfl, rfl⟩

/-- The checkout st0 with the canonical store at 2.4.1. -/
def st241 : FileState :=
  { version_file := some "2.4.1\n".data
    version_h := some sampleVersionH
    readme := some sampleReadme }

/-- Witness for C9 on a canonical store containing 2.4.1: nothing is
mutated and the printed next versions are 3.0.0, 2.5.0 and 2.4.2. -/
theorem show_mode_no_mutation_witness :
    (mainRun { versionArg := none, bumpArg := none, showFlag := true } st241).1
      = st241 ∧
    (show_version_info st241).2.1 =
      ["Current Version: 2.4.1".data,
       "  Major: 2".data,
       "  Minor: 4".data,
       "  Patch: 1".data,
       "Next versions would be:".data,
       "  Major: 3.0.0".data,
       "  Minor: 2.5.0".data,
       "  Patch: 2.4.2".data] ∧
    (show_version_info st241).2.2 = none := by
  obtain ⟨h1, h2, h3⟩ := show_mode_no_mutation st241
  obtain ⟨hl, he⟩ := h3 2 4 1 (by decide)
  refine ⟨h1, ?_, he⟩
  rw [hl]
  decide

/-- C10: when the canonical store is missing, read_current_version
returns the default 0.0.0 rather than raising; show mode succeeds, a
patch bump computes 0.0.1, and with the other two files present the
bump invocation succeeds and writes 0.0.1 to the canonical store. -/
theorem read_current_version_default (st : FileState)
    (h : st.version_file = none) :
    read_current_version st = "0.0.0".data ∧
    bump_version (read_current_version st) "patch".data = some "0.0.1".data ∧
    (show_version_info st).2.2 = none ∧
    (∀ hc rc, st.version_h = some hc → st.readme = some rc →
      (mainRun { versionArg := none, bumpArg := some "patch".data,
                 showFlag := false } st).2.2 = none ∧
      (mainRun { versionArg := none, bumpArg := some "patch".data,
                 showFlag := false } st).1.version_file
        = some ("0.0.1".data ++ [ '\n' ])) := by
  have hcur : read_current_version st = "0.0.0".data := by
    simp [read_current_version, h]
  have hb : bump_version "0.0.0".data "patch".data = some "0.0.1".data := by
    decide
  have hp : parse_version "0.0.1".data = some (0, 0, 1) := by decide
  refine ⟨hcur, by rw [hcur]; exact hb, ?_, ?_⟩
  · rw [show_version_info, hcur]
    rfl
  · intro hc rc hvh hrm
    have hrun : mainRun { versionArg := none, bumpArg := some "patch".data, showFlag := false } st = update_all_files "0.0.1".data st := by
      simp [mainRun, mainBumpBranch, pyTruthyStr, hcur, hb]
    rw [hrun]
    have hh := update_all_files_order_aux "0.0.1".data st (0, 0, 1) hp
    have herr : (update_all_files "0.0.1".data st).2.2 = none := by
      simp [update_all_files, update_version_file, update_version_h,
        update_readme, hp, hvh, hrm]
    exact ⟨herr, hh.1⟩

/-- The checkout st0 with no canonical store. -/
def stNoVersion : FileState :=
  { version_file := none
    version_h := some sampleVersionH
    readme := some sampleReadme }

/-- Witness for C10 on a checkout with no VERSION file. -/
theorem read_current_version_default_witness :
    read_current_version stNoVersion = "0.0.0".data ∧
    bump_version (read_current_version stNoVersion) "patch".data
      = some "0.0.1".data ∧
    (show_version_info stNoVersion).2.2 = none ∧
    (mainRun { versionArg := none, bumpArg := some "patch".data,
               showFlag := false } stNoVersion).1.version_file
      = some ("0.0.1".data ++ [ '\n' ]) := by
  obtain ⟨h1, h2, h3, h4⟩ := read_current_version_default stNoVersion rfl
  obtain ⟨h5, h6⟩ := h4 sampleVersionH sampleReadme rfl rfl
  exact ⟨h1, h2, h3, h6⟩

/-! ## clean_emojis.py : the content transformation

The script reads each candidate file, removes every glyph of a fixed
emoji table (each one a short character sequence), then per line
collapses runs of two or more spaces and trims trailing whitespace
inside ESP_LOG string literals.  The table below lists the distinct
keys of the emoji_replacements dict in insertion order (the dict
literal repeats two keys; a Python dict keeps the first position). -/

def emojiTable : List Str :=
  ["\u011F\u0178\u201C\u00A1".data, "\u011F\u0178\u201D".data,
   "\u011F\u0178\u2030".data, "\u011F\u0178\u203A\u00B0\u00EF\u00B8".data,
   "\u00E2\u00B0".data, "\u011F\u0178\u201C".data,
   "\u011F\u0178\u0152".data, "\u011F\u0178\u2019\u00AC".data,
   "\u00E2\u0153\u2026".data, "\u00E2\u0152".data,
   "\u011F\u0178\u201D\u2039".data, "\u011F\u0178\u201C\u0160".data,
   "\u011F\u0178\u201C\u201E".data, "\u011F\u0178\u0161\u00A7".data,
   "\u011F\u0178\u00AF".data, "\u011F\u0178\u201D\u00A7".data,
   "\u011F\u0178\u201C\u0161".data, "\u00E2\u0161\u00A1".data,
   "\u011F\u0178\u0178\u00A1".data, "\u011F\u0178\u201D\u201E".data,
   "\u011F\u0178\u201C\u00B1".data, "\u011F\u0178\u2020\u201D".data,
   "\u011F\u0178\u201D\u2019".data, "\u011F\u0178\u0161\u00A8".data,
   "\u011F\u0178\u201C\u02C6".data, "\u011F\u0178\u201C\u2030".data,
   "\u011F\u0178\u2019\u00BE".data, "\u011F\u0178\u201D\u0152".data,
   "\u00E2\u0161\u2122\u00EF\u00B8".data, "\u011F\u0178\u203A\u00A1\u00EF\u00B8".data,
   "\u011F\u0178\u201C\u2039".data, "\u011F\u0178\u00A8".data,
   "\u011F\u0178\u201D\u201C".data, "\u011F\u0178\u201D\u201D".data,
   "\u011F\u0178\u00AD".data, "\u011F\u0178\u00AA".data,
   "\u011F\u0178\u0161\u20AC".data, "\u011F\u0178\u2019\u00A1".data,
   "\u011F\u0178\u201D\u00A5".data, "\u00E2\u00AD".data,
   "\u011F\u0178\u0160".data, "\u011F\u0178\u02C6".data,
   "\u011F\u0178".data, "\u011F\u0178\u2020\u2022".data,
   "\u011F\u0178\u2019\u00AF".data, "\u00E2\u0161\u00A0\u00EF\u00B8".data,
   "\u011F\u0178\u00A7\u00AA".data, "\u011F\u0178\u201C\u00AD".data,
   "\u011F\u0178\u201C\u00B6".data, "\u011F\u0178\u201D\u2014".data,
   "\u00E2\u00B3".data
  ]

/-- Match of a literal nonempty pattern at the current position,
replaced by nothing: one step of str.replace(pat, empty string). -/
def stepLit (pat : Str) (s : Str) : Option (Str × Nat) :=
  if pat.isEmpty then none
  else if pat.isPrefixOf s then some ([], pat.length)
  else none

/-- content.replace(pat, empty string). -/
def pyReplaceEmpty (s pat : Str) : Str := scan (stepLit pat) s

/-- The emoji removal loop: one global replace per table entry, in
table order. -/
def removeEmojis (content : Str) : Str := emojiTable.foldl pyReplaceEmpty content

/-- Match of the pattern of two or more spaces, replaced by one
space. -/
def stepSpaces (s : Str) : Option (Str × Nat) :=
  match s with
  | ' ' :: ' ' :: _ => some ([ ' ' ], (s.takeWhile (fun c => c == ' ')).length)
  | _ => none

/-- One line after re.sub of the run-of-spaces pattern. -/
def collapseSpaces (l : Str) : Str := scan stepSpaces l

/-- Python str.rstrip with the two characters space and double quote. -/
def rstripSpaceQuote (s : Str) : Str :=
  (s.reverse.dropWhile (fun c => c == ' ' || c == '"')).reverse

def espPrefix1 : Str := "ESP_LOG".data

def espPrefix2 : Str := "(TAG, \"".data

/-- Match of the log-literal pattern (ESP_LOG, an upper-case letter,
the fixed opening up to the quote, a run of non-quote characters
ending in whitespace, the closing quote), replaced by the match with
trailing spaces and quotes stripped and a quote appended. -/
def stepEsp (s : Str) : Option (Str × Nat) :=
  if espPrefix1.isPrefixOf s then
    match s.drop 7 with
    | [] => none
    | x :: rest1 =>
      if ('A' ≤ x ∧ x ≤ 'Z') ∧ espPrefix2.isPrefixOf rest1 then
        let afterq := rest1.drop 7
        let mid := afterq.takeWhile (fun c => c != '"')
        match afterq.dropWhile (fun c => c != '"') with
        | '"' :: _ =>
          match mid.getLast? with
          | some lc =>
            if pyIsSpace lc then
              let matched := espPrefix1 ++ x :: (espPrefix2 ++ mid ++ [ '"' ])
              some (rstripSpaceQuote matched ++ [ '"' ], matched.length)
            else none
          | none => none
        | _ => none
      else none
  else none

/-- One line after re.sub of the log-literal pattern. -/
def fixEspLog (l : Str) : Str := scan stepEsp l

/-- content.split(newline). -/
def splitNl : Str → List Str
  | [] => [[]]
  | c :: cs =>
    if c = '\n' then [] :: splitNl cs
    else match splitNl cs with
      | [] => [[c]]
      | l :: ls => (c :: l) :: ls

/-- newline.join(lines). -/
def joinNl : List Str → Str
  | [] => []
  | [l] => l
  | l :: l2 :: ls => l ++ '\n' :: joinNl (l2 :: ls)

/-- The full content transformation of clean_emojis_from_file: emoji
removal, then per line the space collapse followed by the log-literal
trim. -/
def clean_content (content : Str) : Str :=
  joinNl ((splitNl (removeEmojis content)).map
    (fun l => fixEspLog (collapseSpaces l)))

example : clean_content "Status: ğŸ“¡  OK".data
    = "Status: OK".data := by decide

example : clean_content "ESP_LOGI(TAG, \"GPS fix   \");".data
    = "ESP_LOGI(TAG, \"GPS fix\");".data := by decide

/-! ## clean_emojis.py : per-file processing and the main loop

Processing one file backs it up, reads it, transforms the content and
rewrites the file only when the content changed; any exception is
caught, printed and reported as not cleaned.  The model records the
file-system events of one processing in order; an outcome of ioError
stands for a processing in which some step raised. -/

inductive FileOutcome where
  | ok (content : Str)
  | ioError (msg : Str)

inductive FsEvent where
  | backupWrite (path : Str) (content : Str)
  | readFile (path : Str)
  | writeFile (path : Str) (content : Str)
deriving DecidableEq

/-- clean_emojis_from_file: the reported flag, the file-system events
in order, and the printed lines. -/
def clean_emojis_from_file (path : Str) (outcome : FileOutcome) :
    Bool × List FsEvent × List Str :=
  match outcome with
  | FileOutcome.ioError e =>
    (false, [], ["Error processing ".data ++ path ++ ": ".data ++ e])
  | FileOutcome.ok content =>
    let cleaned := clean_content content
    if cleaned ≠ content then
      (true,
       [FsEvent.backupWrite (path ++ ".bak".data) content,
        FsEvent.readFile path,
        FsEvent.writeFile path cleaned], [])
    else
      (false,
       [FsEvent.backupWrite (path ++ ".bak".data) content,
        FsEvent.readFile path], [])

def cleanedMsg (path : Str) : Str := "Cleaned emojis from: ".data ++ path

def completedMsg (n : Nat) : Str :=
  "Completed! Cleaned ".data ++ natToStr n ++ " files of all emojis.".data

def backupNote : Str := "Backup files created with .bak extension".data

/-- The per-file loop of main: the number of files reported cleaned
and the printed lines. -/
def runFiles : List (Str × FileOutcome) → Nat × List Str
  | [] => (0, [])
  | f :: fs =>
    let r := clean_emojis_from_file f.1 f.2
    let rest := runFiles fs
    ((if r.1 then 1 else 0) + rest.1,
     (r.2.2 ++ if r.1 then [cleanedMsg f.1] else []) ++ rest.2)

/-- main of clean_emojis.py on the list of candidate files: run the
loop, then print the final count and the backup note. -/
def mainClean (files : List (Str × FileOutcome)) : Nat × List Str :=
  let r := runFiles files
  (r.1, r.2 ++ [completedMsg r.1, backupNote])

/-! ## Lemmas: split and join, and fixpoints of the cleaner -/

theorem splitNl_ne_nil (s : Str) : splitNl s ≠ [] := by
  cases s with
  | nil => simp [splitNl]
  | cons c cs =>
    by_cases hc : c = '\n'
    · simp [splitNl, hc]
    · simp only [splitNl, hc, if_false]
      cases splitNl cs <;> simp

theorem joinNl_splitNl (s : Str) : joinNl (splitNl s) = s := by
  induction s with
  | nil => rfl
  | cons c cs ih =>
    by_cases hc : c = '\n'
    · subst hc
      cases hs : splitNl cs with
      | nil => exact absurd hs (splitNl_ne_nil cs)
      | cons l ls =>
        show joinNl ([] :: splitNl cs) = '\n' :: cs
        rw [hs]
        show '\n' :: joinNl (l :: ls) = '\n' :: cs
        rw [← hs, ih]
    · simp only [splitNl, hc, if_false]
      cases hs : splitNl cs with
      | nil => exact absurd hs (splitNl_ne_nil cs)
      | cons l ls =>
        have hcs : joinNl (l :: ls) = cs := by rw [← hs, ih]
        cases ls with
        | nil =>
          show joinNl [c :: l] = c :: cs
          show c :: l = c :: cs
          rw [← hcs]
          rfl
        | cons l2 ls2 =>
          show (c :: l) ++ '\n' :: joinNl (l2 :: ls2) = c :: cs
          rw [← hcs]
          rfl

theorem foldl_replace_id {ps : List Str} {s : Str}
    (h : ∀ p ∈ ps, hasMatchB (stepLit p) s = false) :
    ps.foldl pyReplaceEmpty s = s := by
  induction ps with
  | nil => rfl
  | cons p ps ih =>
    have hp : pyReplaceEmpty s p = s :=
      scan_id_of_no_match (h p (List.mem_cons_self _ _))
    simp only [List.foldl_cons, hp]
    exact ih (fun q hq => h q (List.mem_cons_of_mem _ hq))

set_option maxRecDepth 8000 in
/-- C6 counterexample: the content transformation is not idempotent.
On this four-character input the emoji pass removes the two-character
glyph in the middle, and the remaining two characters join into
another glyph of the table, which only a second run removes. -/
theorem clean_content_idempotent_cex :
    clean_content (clean_content "\u00E2\u011F\u0178\u00B0".data)
      ≠ clean_content "\u00E2\u011F\u0178\u00B0".data := by
  decide

/-- C6 (amended): the transformation is the identity on every content
free of the three rewrite patterns (no glyph of the table occurs, no
line has a run of two or more spaces, no line matches the log-literal
trim pattern), and such a file is not reported as cleaned; hence a
second run on a file whose first run produced such a content changes
nothing.  In general a second run can differ: removing a glyph can
splice the surrounding characters into another glyph of the table
(see the counterexample). -/
theorem clean_content_fixpoint (path s : Str)
    (h1 : ∀ p ∈ emojiTable, hasMatchB (stepLit p) s = false)
    (h2 : ∀ l ∈ splitNl s, hasMatchB stepSpaces l = false ∧
      hasMatchB stepEsp l = false) :
    clean_content s = s ∧
    (clean_emojis_from_file path (FileOutcome.ok s)).1 = false := by
  have hrem : removeEmojis s = s := foldl_replace_id h1
  have hmap : (splitNl s).map (fun l => fixEspLog (collapseSpaces l)) = splitNl s := by
    have hpt : ∀ l ∈ splitNl s, fixEspLog (collapseSpaces l) = id l := by
      intro l hl
      obtain ⟨hsp, hesp⟩ := h2 l hl
      show fixEspLog (collapseSpaces l) = l
      rw [show collapseSpaces l = l from scan_id_of_no_match hsp]
      exact scan_id_of_no_match hesp
    rw [List.map_congr_left hpt, List.map_id]
  have hfix : clean_content s = s := by
    rw [clean_content, hrem, hmap, joinNl_splitNl]
  refine ⟨hfix, ?_⟩
  simp [clean_emojis_from_file, hfix]

/-- Witness for C6 (amended) on an already-cleaned log line. -/
theorem clean_content_fixpoint_witness :
    (∀ p ∈ emojiTable,
      hasMatchB (stepLit p) "ESP_LOGI(TAG, \"GPS ready\");\nint x;".data = false) ∧
    (∀ l ∈ splitNl "ESP_LOGI(TAG, \"GPS ready\");\nint x;".data,
      hasMatchB stepSpaces l = false ∧ hasMatchB stepEsp l = false) ∧
    clean_content "ESP_LOGI(TAG, \"GPS ready\");\nint x;".data
      = "ESP_LOGI(TAG, \"GPS ready\");\nint x;".data ∧
    (clean_emojis_from_file "main/gps.c".data
      (FileOutcome.ok "ESP_LOGI(TAG, \"GPS ready\");\nint x;".data)).1 = false := by
  refine ⟨by decide, by decide, ?_⟩
  have := clean_content_fixpoint "main/gps.c".data
    "ESP_LOGI(TAG, \"GPS ready\");\nint x;".data (by decide) (by decide)
  exact this

/-- C7: processing a file creates the backup (holding the original
content, at the adjacent .bak path) as the first file-system event,
before the read and before any write, unconditionally; when the
transformation leaves the content unchanged the file is not rewritten
(no write event) and not reported as cleaned, yet the backup event is
still present. -/
theorem backup_before_read (path content : Str) :
    ((clean_emojis_from_file path (FileOutcome.ok content)).2.1.head?
      = some (FsEvent.backupWrite (path ++ ".bak".data) content)) ∧
    ((clean_emojis_from_file path (FileOutcome.ok content)).2.1.get? 1
      = some (FsEvent.readFile path)) ∧
    (clean_content content = content →
      clean_emojis_from_file path (FileOutcome.ok content)
        = (false, [FsEvent.backupWrite (path ++ ".bak".data) content,
                   FsEvent.readFile path], [])) := by
  refine ⟨?_, ?_, ?_⟩
  · simp only [clean_emojis_from_file]
    split <;> rfl
  · simp only [clean_emojis_from_file]
    split <;> rfl
  · intro hfix
    simp [clean_emojis_from_file, hfix]

/-- Witness for C7 on a file whose content the cleaner leaves
unchanged. -/
theorem backup_before_read_witness :
    clean_emojis_from_file "main/gps.h".data (FileOutcome.ok "int y;".data)
      = (false,
         [FsEvent.backupWrite "main/gps.h.bak".data "int y;".data,
          FsEvent.readFile "main/gps.h".data], []) := by
  have h := (backup_before_read "main/gps.h".data "int y;".data).2.2 (by decide)
  rw [h]
  decide

theorem runFiles_append (a b : List (Str × FileOutcome)) :
    runFiles (a ++ b)
      = ((runFiles a).1 + (runFiles b).1, (runFiles a).2 ++ (runFiles b).2) := by
  induction a with
  | nil => simp [runFiles]
  | cons f fs ih =>
    simp only [List.cons_append, runFiles, List.append_eq, ih, Prod.mk.injEq]
    refine ⟨by omega, by simp⟩

/-- C8: an I/O error while processing one file is caught inside the
per-file function, which prints a message carrying the offending path
and the error text and reports the file as not cleaned; the remaining
files are still processed, the final count is the count over the other
files, and the completion lines are still printed. -/
theorem per_file_error_isolated (fs1 fs2 : List (Str × FileOutcome))
    (p e : Str) :
    (clean_emojis_from_file p (FileOutcome.ioError e)
      = (false, [], ["Error processing ".data ++ p ++ ": ".data ++ e])) ∧
    ((mainClean (fs1 ++ (p, FileOutcome.ioError e) :: fs2)).1
      = (mainClean (fs1 ++ fs2)).1) ∧
    (("Error processing ".data ++ p ++ ": ".data ++ e)
      ∈ (mainClean (fs1 ++ (p, FileOutcome.ioError e) :: fs2)).2) ∧
    (completedMsg ((mainClean (fs1 ++ fs2)).1)
      ∈ (mainClean (fs1 ++ (p, FileOutcome.ioError e) :: fs2)).2) := by
  have herr : clean_emojis_from_file p (FileOutcome.ioError e)
      = (false, [], ["Error processing ".data ++ p ++ ": ".data ++ e]) := rfl
  have hmid : runFiles ((p, FileOutcome.ioError e) :: fs2)
      = ((runFiles fs2).1,
         ["Error processing ".data ++ p ++ ": ".data ++ e] ++ (runFiles fs2).2) := by
    simp [runFiles, herr]
  have hx := runFiles_append fs1 ((p, FileOutcome.ioError e) :: fs2)
  have hy := runFiles_append fs1 fs2
  have hcnt : (runFiles (fs1 ++ (p, FileOutcome.ioError e) :: fs2)).1
      = (runFiles (fs1 ++ fs2)).1 := by
    rw [hx, hy, hmid]
  refine ⟨herr, ?_, ?_, ?_⟩
  · show (runFiles (fs1 ++ (p, FileOutcome.ioError e) :: fs2)).1
      = (runFiles (fs1 ++ fs2)).1
    exact hcnt
  · show _ ∈ (runFiles (fs1 ++ (p, FileOutcome.ioError e) :: fs2)).2
      ++ [completedMsg (runFiles (fs1 ++ (p, FileOutcome.ioError e) :: fs2)).1,
          backupNote]
    apply List.mem_append_left
    rw [hx, hmid]
    simp
  · show _ ∈ (runFiles (fs1 ++ (p, FileOutcome.ioError e) :: fs2)).2
      ++ [completedMsg (runFiles (fs1 ++ (p, FileOutcome.ioError e) :: fs2)).1,
          backupNote]
    apply List.mem_append_right
    rw [hcnt]
    show completedMsg ((runFiles (fs1 ++ fs2)).1) ∈ _
    simp

/-! ## Line structure of texts -/

theorem splitNl_cons_nl (cs : Str) : splitNl ('\n' :: cs) = [] :: splitNl cs := by
  simp [splitNl]

theorem splitNl_cons_ne {c : Char} (h : c ≠ '\n') (cs : Str) :
    splitNl (c :: cs) = match splitNl cs with
      | [] => [[c]]
      | l :: ls => (c :: l) :: ls := by
  simp [splitNl, h]

theorem splitNl_single {u : Str} (h : '\n' ∉ u) : splitNl u = [u] := by
  induction u with
  | nil => rfl
  | cons c cs ih =>
    have hc : c ≠ '\n' := fun hh => h (hh ▸ List.mem_cons_self _ _)
    have hcs : '\n' ∉ cs := fun hh => h (List.mem_cons_of_mem _ hh)
    rw [splitNl_cons_ne hc, ih hcs]

theorem splitNl_append_nl {F : Str} (h : '\n' ∉ F) (r : Str) :
    splitNl (F ++ '\n' :: r) = F :: splitNl r := by
  induction F with
  | nil => simp [splitNl_cons_nl]
  | cons c cs ih =>
    have hc : c ≠ '\n' := fun hh => h (hh ▸ List.mem_cons_self _ _)
    have hcs : '\n' ∉ cs := fun hh => h (List.mem_cons_of_mem _ hh)
    rw [List.cons_append, splitNl_cons_ne hc, ih hcs]

theorem splitNl_prepend {o u U0 : Str} {Us : List Str} (ho : '\n' ∉ o)
    (hu : splitNl u = U0 :: Us) : splitNl (o ++ u) = (o ++ U0) :: Us := by
  induction o with
  | nil => simpa using hu
  | cons c cs ih =>
    have hc : c ≠ '\n' := fun hh => ho (hh ▸ List.mem_cons_self _ _)
    have hcs : '\n' ∉ cs := fun hh => ho (List.mem_cons_of_mem _ hh)
    rw [List.cons_append, splitNl_cons_ne hc, ih hcs]
    rfl

theorem splitNl_cases (s : Str) :
    ('\n' ∉ s ∧ splitNl s = [s]) ∨
    ∃ F r, s = F ++ '\n' :: r ∧ '\n' ∉ F ∧ splitNl s = F :: splitNl r := by
  induction s with
  | nil => exact Or.inl ⟨by simp, rfl⟩
  | cons c cs ih =>
    by_cases hc : c = '\n'
    · subst hc
      exact Or.inr ⟨[], cs, by simp, by simp, by simp [splitNl_cons_nl]⟩
    · rcases ih with ⟨h1, h2⟩ | ⟨F, r, hF, hnF, hsp⟩
      · refine Or.inl ⟨?_, ?_⟩
        · intro hh
          rcases List.mem_cons.1 hh with hh | hh
          · exact hc hh.symm
          · exact h1 hh
        · rw [splitNl_cons_ne hc, h2]
      · refine Or.inr ⟨c :: F, r, by rw [hF]; rfl, ?_, ?_⟩
        · intro hh
          rcases List.mem_cons.1 hh with hh | hh
          · exact hc hh.symm
          · exact hnF hh
        · rw [splitNl_cons_ne hc, hsp]

/-! ## Take, drop and prefixes across a newline -/

theorem drop_append_le {l1 : Str} (l2 : Str) :
    ∀ {n : Nat}, n ≤ l1.length → List.drop n (l1 ++ l2) = List.drop n l1 ++ l2 := by
  induction l1 with
  | nil =>
    intro n h
    have h0 : n = 0 := Nat.le_zero.mp h
    subst h0
    simp
  | cons c cs ih =>
    intro n h
    cases n with
    | zero => simp
    | succ n => simpa using ih (by simpa using h)

theorem take_append_len (l1 l2 : Str) (m : Nat) :
    List.take (l1.length + m) (l1 ++ l2) = l1 ++ List.take m l2 := by
  induction l1 with
  | nil => simp
  | cons c cs ih => simpa [Nat.succ_add] using ih

theorem mem_take_append_nl {L : Str} (r : Str) :
    ∀ {n : Nat}, L.length < n → '\n' ∈ List.take n (L ++ '\n' :: r) := by
  induction L with
  | nil =>
    intro n h
    cases n with
    | zero => omega
    | succ n => simp
  | cons c cs ih =>
    intro n h
    cases n with
    | zero => omega
    | succ n =>
      simp only [List.cons_append, List.take_succ_cons, List.mem_cons]
      exact Or.inr (ih (by simpa using h))

theorem take_of_prefix {p t : Str} (h : p <+: t) : List.take p.length t = p := by
  obtain ⟨r, rfl⟩ := h
  exact List.take_left p r

theorem prefix_append_nl_iff {pat s1 : Str} (s2 : Str) (hp : '\n' ∉ pat) : pat <+: s1 ++ '\n' :: s2 ↔ pat <+: s1 := by
  constructor
  · intro h
    rcases le_or_lt pat.length s1.length with hle | hgt
    · exact List.prefix_of_prefix_length_le h (List.prefix_append s1 ('\n' :: s2)) hle
    · exfalso
      apply hp
      have := take_of_prefix h
      rw [← this]
      exact mem_take_append_nl s2 hgt
  · intro h
    exact h.trans (List.prefix_append s1 ('\n' :: s2))

theorem takeWhile_append_stop {p : Char → Bool} {c : Char} (hpc : p c = false)
    (a b : Str) : List.takeWhile p (a ++ c :: b) = List.takeWhile p a := by
  induction a with
  | nil => simp [List.takeWhile_cons, hpc]
  | cons x xs ih =>
    simp only [List.cons_append, List.takeWhile_cons]
    cases hpx : p x <;> simp [ih]

/-! ## Line safety of a substitution step

A step function is line safe at a text when a match there consumes
and produces no newline, and when its outcome at a text whose first
line ends is decided by that first line alone.  The three directive
patterns of update_version_h are line safe everywhere; the string
directive pattern is line safe wherever its match does not cross a
newline. -/

def StepLineSafe (step : Str → Option (Str × Nat)) (t : Str) : Prop :=
  (∀ o n, step t = some (o, n) →
    ('\n' ∉ o) ∧ 1 ≤ n ∧ '\n' ∉ t.take n) ∧
  (∀ s1 s2, t = s1 ++ '\n' :: s2 → '\n' ∉ s1 → step t = step s1)

theorem suffix_append_nl {u F : Str} (r : Str) (h : u <:+ F) :
    u ++ '\n' :: r <:+ F ++ '\n' :: r := by
  obtain ⟨p, rfl⟩ := h
  exact ⟨p, by simp⟩

/-- Scanning a newline-free text in front of a newline produces a
newline-free text (each replacement is newline free by safety of the
step at the corresponding suffix of the full text). -/
theorem scan_nlfree_rel (step : Str → Option (Str × Nat)) :
    ∀ (m : Nat) (F r : Str), F.length ≤ m → '\n' ∉ F →
      (∀ t, t <:+ (F ++ '\n' :: r) → StepLineSafe step t) →
      '\n' ∉ scan step F := by
  intro m
  induction m with
  | zero =>
    intro F r hlen hF hsafe
    have h0 : F = [] := List.length_eq_zero.mp (Nat.le_zero.mp hlen)
    subst h0
    simp [scan_nil]
  | succ m ih =>
    intro F r hlen hF hsafe
    cases F with
    | nil => simp [scan_nil]
    | cons c F1 =>
      obtain ⟨hout, hloc⟩ := hsafe _ (List.suffix_refl _)
      have hloc1 : step ((c :: F1) ++ '\n' :: r) = step (c :: F1) :=
        hloc (c :: F1) r rfl hF
      have hsafe1 : ∀ t, t <:+ (F1 ++ '\n' :: r) → StepLineSafe step t :=
        fun t ht => hsafe t (ht.trans (by exact ⟨[c], rfl⟩))
      have hF1 : '\n' ∉ F1 := fun hh => hF (List.mem_cons_of_mem _ hh)
      cases hs : step (c :: F1) with
      | none =>
        rw [scan_cons_nomatch hs]
        intro hh
        rcases List.mem_cons.1 hh with hh | hh
        · exact hF (List.mem_cons.mpr (Or.inl hh))
        · exact ih F1 r (by simpa using hlen) hF1 hsafe1 hh
      | some pr =>
        obtain ⟨o, n⟩ := pr
        obtain ⟨ho, hn1, htake⟩ := hout o n (hloc1.trans hs)
        rw [scan_cons_match hs]
        intro hh
        rcases List.mem_append.1 hh with hh | hh
        · exact ho hh
        · have hdropF : '\n' ∉ List.drop (n - 1) F1 :=
            fun hx => hF1 (List.mem_of_mem_drop hx)
          have hsafed : ∀ t, t <:+ (List.drop (n - 1) F1 ++ '\n' :: r) →
              StepLineSafe step t := by
            intro t ht
            apply hsafe
            apply ht.trans
            have : List.drop (n - 1) F1 ++ '\n' :: r
                = List.drop n ((c :: F1) ++ '\n' :: r) := by
              have hnn : n - 1 ≤ F1.length ∨ F1.length < n - 1 := by omega
              rcases hnn with hle | hgt
              · cases n with
                | zero => omega
                | succ k =>
                  simp only [List.cons_append, List.drop_succ_cons,
                    Nat.add_sub_cancel]
                  rw [drop_append_le _ (show k ≤ F1.length by omega)]
              · exfalso
                apply htake
                apply mem_take_append_nl
                simp only [List.length_cons]
                omega
            rw [this]
            exact List.drop_suffix _ _
          exact ih (List.drop (n - 1) F1) r
            (by
              have := List.length_drop (n - 1) F1
              simp only [List.length_cons] at hlen
              omega)
            hdropF hsafed hh

/-- Scanning a newline-free text produces a newline-free text. -/
theorem scan_nlfree (step : Str → Option (Str × Nat)) :
    ∀ (m : Nat) (s : Str), s.length ≤ m → '\n' ∉ s →
      (∀ t, t <:+ s → StepLineSafe step t) →
      '\n' ∉ scan step s := by
  intro m
  induction m with
  | zero =>
    intro s hlen hs hsafe
    have h0 : s = [] := List.length_eq_zero.mp (Nat.le_zero.mp hlen)
    subst h0
    simp [scan_nil]
  | succ m ih =>
    intro s hlen hs hsafe
    cases s with
    | nil => simp [scan_nil]
    | cons c cs =>
      obtain ⟨hout, _⟩ := hsafe _ (List.suffix_refl _)
      have hcs : '\n' ∉ cs := fun hh => hs (List.mem_cons_of_mem _ hh)
      have hsafe1 : ∀ t, t <:+ cs → StepLineSafe step t :=
        fun t ht => hsafe t (List.suffix_cons_iff.mpr (Or.inr ht))
      cases hstep : step (c :: cs) with
      | none =>
        rw [scan_cons_nomatch hstep]
        intro hh
        rcases List.mem_cons.1 hh with hh | hh
        · exact hs (List.mem_cons.mpr (Or.inl hh))
        · exact ih cs (by simpa using hlen) hcs hsafe1 hh
      | some pr =>
        obtain ⟨o, n⟩ := pr
        obtain ⟨ho, hn1, _⟩ := hout o n hstep
        rw [scan_cons_match hstep]
        intro hh
        rcases List.mem_append.1 hh with hh | hh
        · exact ho hh
        · have hdrop : '\n' ∉ List.drop (n - 1) cs :=
            fun hx => hcs (List.mem_of_mem_drop hx)
          have hsafed : ∀ t, t <:+ List.drop (n - 1) cs → StepLineSafe step t :=
            fun t ht => hsafe1 t (ht.trans (List.drop_suffix _ _))
          exact ih (List.drop (n - 1) cs)
            (by
              have := List.length_drop (n - 1) cs
              simp only [List.length_cons] at hlen
              omega)
            hdrop hsafed hh

/-- The scan of a text distributes over its first line boundary when
the step is line safe on every suffix. -/
theorem scan_append_nl (step : Str → Option (Str × Nat)) (hnil : step [] = none) :
    ∀ (m : Nat) (F r : Str), F.length ≤ m → '\n' ∉ F →
      (∀ t, t <:+ (F ++ '\n' :: r) → StepLineSafe step t) →
      scan step (F ++ '\n' :: r) = scan step F ++ '\n' :: scan step r := by
  intro m
  induction m with
  | zero =>
    intro F r hlen hF hsafe
    have h0 : F = [] := List.length_eq_zero.mp (Nat.le_zero.mp hlen)
    subst h0
    obtain ⟨_, hloc⟩ := hsafe _ (List.suffix_refl _)
    have hnl : step ([] ++ '\n' :: r) = none := (hloc [] r rfl (by simp)).trans hnil
    rw [List.nil_append] at hnl ⊢
    rw [scan_cons_nomatch hnl, scan_nil]
    rfl
  | succ m ih =>
    intro F r hlen hF hsafe
    cases F with
    | nil =>
      obtain ⟨_, hloc⟩ := hsafe _ (List.suffix_refl _)
      have hnl : step ([] ++ '\n' :: r) = none := (hloc [] r rfl (by simp)).trans hnil
      rw [List.nil_append] at hnl ⊢
      rw [scan_cons_nomatch hnl, scan_nil]
      rfl
    | cons c F1 =>
      obtain ⟨hout, hloc⟩ := hsafe _ (List.suffix_refl _)
      have hloc1 : step ((c :: F1) ++ '\n' :: r) = step (c :: F1) :=
        hloc (c :: F1) r rfl hF
      have hF1 : '\n' ∉ F1 := fun hh => hF (List.mem_cons_of_mem _ hh)
      have hsafe1 : ∀ t, t <:+ (F1 ++ '\n' :: r) → StepLineSafe step t :=
        fun t ht => hsafe t (ht.trans (by exact ⟨[c], rfl⟩))
      cases hs : step (c :: F1) with
      | none =>
        have hs2 : step (c :: (F1 ++ '\n' :: r)) = none := by
          rw [show c :: (F1 ++ '\n' :: r) = (c :: F1) ++ '\n' :: r from rfl]
          exact hloc1.trans hs
        rw [List.cons_append, scan_cons_nomatch hs2,
          ih F1 r (by simpa using hlen) hF1 hsafe1, scan_cons_nomatch hs]
        rfl
      | some pr =>
        obtain ⟨o, n⟩ := pr
        have hs2 : step (c :: (F1 ++ '\n' :: r)) = some (o, n) := by
          rw [show c :: (F1 ++ '\n' :: r) = (c :: F1) ++ '\n' :: r from rfl]
          exact hloc1.trans hs
        obtain ⟨ho, hn1, htake⟩ := hout o n (by
          rw [show (c :: F1) ++ '\n' :: r = c :: (F1 ++ '\n' :: r) from rfl]
          exact hs2)
        have hnF : n - 1 ≤ F1.length := by
          by_contra hgt
          push_neg at hgt
          apply htake
          apply mem_take_append_nl
          simp only [List.length_cons]
          omega
        have hdropeq : List.drop (n - 1) (F1 ++ '\n' :: r)
            = List.drop (n - 1) F1 ++ '\n' :: r := drop_append_le _ hnF
        have hsafed : ∀ t, t <:+ (List.drop (n - 1) F1 ++ '\n' :: r) →
            StepLineSafe step t := by
          intro t ht
          apply hsafe1
          apply ht.trans
          rw [← hdropeq]
          exact List.drop_suffix _ _
        rw [List.cons_append, scan_cons_match hs2, hdropeq,
          ih (List.drop (n - 1) F1) r
            (by
              have := List.length_drop (n - 1) F1
              simp only [List.length_cons] at hlen
              omega)
            (fun hx => hF1 (List.mem_of_mem_drop hx)) hsafed,
          scan_cons_match hs]
        simp

/-- Substitution distributes over the lines of the text when the step
is line safe on every suffix. -/
theorem splitNl_scan (step : Str → Option (Str × Nat)) (hnil : step [] = none) :
    ∀ (m : Nat) (s : Str), s.length ≤ m →
      (∀ t, t <:+ s → StepLineSafe step t) →
      splitNl (scan step s) = (splitNl s).map (scan step) := by
  intro m
  induction m with
  | zero =>
    intro s hlen hsafe
    have h0 : s = [] := List.length_eq_zero.mp (Nat.le_zero.mp hlen)
    subst h0
    rw [scan_nil]
    rfl
  | succ m ih =>
    intro s hlen hsafe
    rcases splitNl_cases s with ⟨hnl, hsp⟩ | ⟨F, r, hFr, hF, hsp⟩
    · rw [hsp]
      have hnf : '\n' ∉ scan step s := scan_nlfree step s.length s le_rfl hnl hsafe
      rw [splitNl_single hnf]
      rfl
    · subst hFr
      have hsplit := scan_append_nl step hnil F.length F r le_rfl hF hsafe
      have hFnf : '\n' ∉ scan step F := scan_nlfree_rel step F.length F r le_rfl hF hsafe
      have hrsafe : ∀ t, t <:+ r → StepLineSafe step t := by
        intro t ht
        apply hsafe
        apply ht.trans
        have h1 : r <:+ '\n' :: r := List.suffix_cons_iff.mpr (Or.inr (List.suffix_refl _))
        exact h1.trans (List.suffix_append F ('\n' :: r))
      have hrlen : r.length ≤ m := by
        have : (F ++ '\n' :: r).length = F.length + 1 + r.length := by simp; omega
        omega
      rw [hsp, hsplit, splitNl_append_nl hFnf, ih r hrlen hrsafe]
      rfl

/-! ## Line safety of the directive substitutions -/

theorem natToStr_no_nl (k : Nat) : '\n' ∉ natToStr k := by
  intro hmem
  have hd := natToStr_digits k '\n' hmem
  obtain ⟨h1, h2⟩ := isDigit_toNat_bounds hd
  have h10 : ('\n').toNat = 10 := rfl
  omega

theorem dropWhile_head_false (p : Char → Bool) {l xs : Str} {x : Char}
    (h : List.dropWhile p l = x :: xs) : p x = false := by
  induction l with
  | nil => simp at h
  | cons c cs ih =>
    rw [List.dropWhile_cons] at h
    by_cases hc : p c
    · rw [if_pos hc] at h
      exact ih h
    · rw [if_neg hc] at h
      injection h with h1 h2
      subst h1
      simpa using hc

theorem takeWhile_append_not_all {p : Char → Bool} {a : Str} (b : Str)
    (h : ¬ ∀ c ∈ a, p c = true) :
    List.takeWhile p (a ++ b) = List.takeWhile p a := by
  rw [List.takeWhile_append, if_neg]
  intro hlen
  apply h
  intro c hc
  have heq : a.takeWhile p = a :=
    ( List.takeWhile_prefix p).eq_of_length hlen
  rw [← heq] at hc
  exact List.mem_takeWhile_imp hc

theorem dropWhile_append_not_all {p : Char → Bool} {a : Str} (b : Str)
    (h : ¬ ∀ c ∈ a, p c = true) :
    List.dropWhile p (a ++ b) = List.dropWhile p a ++ b := by
  rw [List.dropWhile_append, if_neg]
  intro hemp
  apply h
  exact List.dropWhile_eq_nil_iff.mp (List.isEmpty_iff.mp hemp)

/-- The three numeric directive substitutions of update_version_h are
line safe at every text. -/
theorem stepDefineNat_safe (pat : Str) (k : Nat) (hnl : '\n' ∉ pat)
    (hne : pat ≠ []) (t : Str) : StepLineSafe (stepDefineNat pat k) t := by
  constructor
  · intro o n h
    simp only [stepDefineNat] at h
    by_cases hpre : pat.isPrefixOf t
    case neg =>
      rw [if_neg hpre] at h
      exact absurd h (by simp)
    rw [if_pos hpre] at h
    by_cases hde : ((t.drop pat.length).takeWhile pyIsDigit).isEmpty
    · rw [if_pos hde] at h
      exact absurd h (by simp)
    · rw [if_neg hde] at h
      have hx := Option.some.inj h
      rw [Prod.mk.injEq] at hx
      obtain ⟨ho, hn⟩ := hx
      subst ho
      subst hn
      refine ⟨?_, ?_, ?_⟩
      · intro hm
        rcases List.mem_append.1 hm with hm | hm
        · exact hnl hm
        · exact natToStr_no_nl k hm
      · have := List.length_pos.mpr hne
        omega
      · obtain ⟨rest, rfl⟩ := List.isPrefixOf_iff_prefix.mp hpre
        have hdrop : (pat ++ rest).drop pat.length = rest := List.drop_left _ _
        rw [hdrop]
        rw [take_append_len]
        have htk : List.take (rest.takeWhile pyIsDigit).length rest
            = rest.takeWhile pyIsDigit := take_of_prefix ( List.takeWhile_prefix _)
        rw [htk]
        intro hm
        rcases List.mem_append.1 hm with hm | hm
        · exact hnl hm
        · have hpd := List.mem_takeWhile_imp hm
          exact absurd hpd (by decide)
  · intro s1 s2 hteq hs1
    subst hteq
    simp only [stepDefineNat]
    by_cases hp1 : pat <+: s1
    · have hp2 : pat <+: s1 ++ '\n' :: s2 := (prefix_append_nl_iff s2 hnl).mpr hp1
      rw [if_pos (List.isPrefixOf_iff_prefix.mpr hp2),
        if_pos (List.isPrefixOf_iff_prefix.mpr hp1)]
      rw [drop_append_le _ hp1.length_le]
      rw [takeWhile_append_stop (by decide) _ _]
    · have hp2 : ¬ pat <+: s1 ++ '\n' :: s2 :=
        fun hx => hp1 ((prefix_append_nl_iff s2 hnl).mp hx)
      rw [if_neg (fun hx => hp2 (List.isPrefixOf_iff_prefix.mp hx)),
        if_neg (fun hx => hp1 (List.isPrefixOf_iff_prefix.mp hx))]

/-- The string directive pattern matches at this position with a
match that spans a newline (the quoted part, which the class
excluding only quotes can cross lines with, contains a newline). -/
def stepStrCrossesNl (s : Str) : Bool :=
  if stringPat.isPrefixOf s then
    let rest := s.drop stringPat.length
    let mid := rest.takeWhile (fun c => c != '"')
    match rest.dropWhile (fun c => c != '"') with
    | '"' :: _ => decide ('\n' ∈ mid)
    | _ => false
  else false

/-- No position of the text carries a string directive match spanning
a newline. -/
def noMultilineStringMatch : Str → Bool
  | [] => true
  | c :: cs => !stepStrCrossesNl (c :: cs) && noMultilineStringMatch cs

theorem noML_suffix {s t : Str} (h : noMultilineStringMatch s = true)
    (hs : t <:+ s) : stepStrCrossesNl t = false := by
  induction s with
  | nil =>
    have ht : t = [] := List.suffix_nil.mp hs
    subst ht
    rfl
  | cons c cs ih =>
    simp only [noMultilineStringMatch, Bool.and_eq_true, Bool.not_eq_true'] at h
    obtain ⟨hc, hcs⟩ := h
    rcases List.suffix_cons_iff.mp hs with rfl | hs2
    · exact hc
    · exact ih hcs hs2

theorem bne_quote_false {x : Char} (h : (x != '"') = false) : x = '"' := by
  simpa using h

/-- The string directive substitution is line safe at every text where
its match does not span a newline. -/
theorem stepDefineStr_safe {newv : Str} (hv : '\n' ∉ newv) {t : Str}
    (hcross : stepStrCrossesNl t = false) :
    StepLineSafe (stepDefineStr newv) t := by
  constructor
  · intro o n h
    simp only [stepDefineStr] at h
    by_cases hpre : stringPat.isPrefixOf t
    case neg =>
      rw [if_neg hpre] at h
      exact absurd h (by simp)
    rw [if_pos hpre] at h
    obtain ⟨rest, rfl⟩ := List.isPrefixOf_iff_prefix.mp hpre
    rw [List.drop_left] at h
    cases hdw : List.dropWhile (fun c => c != '"') rest with
    | nil =>
      rw [hdw] at h
      exact absurd h (by simp)
    | cons x xs =>
      rw [hdw] at h
      have hpx : (x != '"') = false :=
        dropWhile_head_false (fun c => c != '"') hdw
      have hx : x = '"' := bne_quote_false hpx
      subst hx
      have hx2 := Option.some.inj h
      rw [Prod.mk.injEq] at hx2
      obtain ⟨ho, hn⟩ := hx2
      subst ho
      subst hn
      have hmid : '\n' ∉ rest.takeWhile (fun c => c != '"') := by
        simp only [stepStrCrossesNl, if_pos hpre, List.drop_left, hdw] at hcross
        intro hm
        rw [decide_eq_true hm] at hcross
        exact Bool.true_eq_false.mp hcross
      refine ⟨?_, ?_, ?_⟩
      · intro hm
        rcases List.mem_append.1 hm with hm | hm
        · rcases List.mem_append.1 hm with hm | hm
          · have : ('\n' ∈ stringPat) = False := by
              simp only [eq_iff_iff, iff_false]
              decide
            rw [this] at hm
            exact hm
          · exact hv hm
        · exact absurd (List.mem_singleton.1 hm) (by decide)
      · have : 0 < stringPat.length := by decide
        omega
      · have hrest : rest = rest.takeWhile (fun c => c != '"') ++
            '"' :: xs := by
          conv_lhs => rw [← List.takeWhile_append_dropWhile (fun c => c != '"') rest]
          rw [hdw]
        have hassoc : stringPat.length + (rest.takeWhile (fun c => c != '"')).length + 1
            = stringPat.length + ((rest.takeWhile (fun c => c != '"')).length + 1) := by
          omega
        rw [hassoc, take_append_len]
        have hmid_all : ∀ c ∈ rest.takeWhile (fun c => c != '"'),
            (c != '"') = true := by
          intro c hc
          have := List.mem_takeWhile_imp hc
          exact this
        have htw : List.takeWhile (fun c => c != '"')
              (rest.takeWhile (fun c => c != '"') ++ '"' :: xs)
            = rest.takeWhile (fun c => c != '"') := by
          rw [List.takeWhile_append_of_pos hmid_all, List.takeWhile_cons]
          simp
        have htake2 : List.take ((rest.takeWhile (fun c => c != '"')).length + 1) rest
            = rest.takeWhile (fun c => c != '"') ++ ['"'] := by
          conv_lhs => rw [hrest]
          rw [htw, take_append_len]
          rfl
        rw [htake2]
        intro hm
        rcases List.mem_append.1 hm with hm | hm
        · have hns : ('\n' ∈ stringPat) = False := by
            simp only [eq_iff_iff, iff_false]
            decide
          rw [hns] at hm
          exact hm
        · rcases List.mem_append.1 hm with hm | hm
          · exact hmid hm
          · simp at hm
  · intro s1 s2 hteq hs1
    subst hteq
    have hpnl : '\n' ∉ stringPat := by decide
    simp only [stepDefineStr]
    by_cases hp1 : stringPat <+: s1
    · have hp2 : stringPat <+: s1 ++ '\n' :: s2 :=
        (prefix_append_nl_iff s2 hpnl).mpr hp1
      rw [if_pos (List.isPrefixOf_iff_prefix.mpr hp2),
        if_pos (List.isPrefixOf_iff_prefix.mpr hp1)]
      rw [drop_append_le _ hp1.length_le]
      by_cases hall : ∀ c ∈ s1.drop stringPat.length, (c != '"') = true
      · rw [List.dropWhile_append_of_pos hall]
        rw [show List.dropWhile (fun c => c != '"') ('\n' :: s2)
            = List.dropWhile (fun c => c != '"') s2 from by
          rw [List.dropWhile_cons, if_pos (by decide)]]
        cases hdw : List.dropWhile (fun c => c != '"') s2 with
        | nil =>
          rw [show List.dropWhile (fun c => c != '"') (s1.drop stringPat.length)
              = [] from List.dropWhile_eq_nil_iff.mpr hall]
        | cons x xs =>
          have hpx : (x != '"') = false :=
            dropWhile_head_false (fun c => c != '"') hdw
          have hx : x = '"' := bne_quote_false hpx
          subst hx
          exfalso
          have hT : stepStrCrossesNl (s1 ++ '\n' :: s2) = true := by
            simp only [stepStrCrossesNl, if_pos (List.isPrefixOf_iff_prefix.mpr hp2)]
            rw [drop_append_le _ hp1.length_le]
            rw [List.dropWhile_append_of_pos hall]
            rw [show List.dropWhile (fun c => c != '"') ('\n' :: s2)
                = List.dropWhile (fun c => c != '"') s2 from by
              rw [List.dropWhile_cons, if_pos (by decide)]]
            rw [hdw]
            rw [List.takeWhile_append_of_pos hall]
            rw [show List.takeWhile (fun c => c != '"') ('\n' :: s2)
                = '\n' :: List.takeWhile (fun c => c != '"') s2 from by
              rw [List.takeWhile_cons, if_pos (by decide)]]
            simp
          rw [hcross] at hT
          exact Bool.false_eq_true.mp hT
      · rw [dropWhile_append_not_all _ hall, takeWhile_append_not_all _ hall]
        cases hdw : List.dropWhile (fun c => c != '"') (s1.drop stringPat.length) with
        | nil => exact absurd (List.dropWhile_eq_nil_iff.mp hdw) hall
        | cons x xs =>
          have hpx : (x != '"') = false :=
            dropWhile_head_false (fun c => c != '"') hdw
          have hx : x = '"' := bne_quote_false hpx
          subst hx
          rfl
    · have hp2 : ¬ stringPat <+: s1 ++ '\n' :: s2 :=
        fun hx => hp1 ((prefix_append_nl_iff s2 hpnl).mp hx)
      rw [if_neg (fun hx => hp2 (List.isPrefixOf_iff_prefix.mp hx)),
        if_neg (fun hx => hp1 (List.isPrefixOf_iff_prefix.mp hx))]

/-! ## The line frame property of update_version_h -/

theorem stepDefineNat_isSome (pat : Str) (j k : Nat) (s : Str) :
    (stepDefineNat pat j s).isSome = (stepDefineNat pat k s).isSome := by
  simp only [stepDefineNat]
  split
  · split <;> rfl
  · rfl

theorem stepDefineStr_isSome (u v s : Str) :
    (stepDefineStr u s).isSome = (stepDefineStr v s).isSome := by
  simp only [stepDefineStr]
  split
  · split <;> rfl
  · rfl

theorem hasMatchB_stepDefineNat (pat : Str) (j k : Nat) :
    ∀ s, hasMatchB (stepDefineNat pat j) s = hasMatchB (stepDefineNat pat k) s := by
  intro s
  induction s with
  | nil => rfl
  | cons c cs ih =>
    simp only [hasMatchB, stepDefineNat_isSome pat j k, ih]

theorem hasMatchB_stepDefineStr (u v : Str) :
    ∀ s, hasMatchB (stepDefineStr u) s = hasMatchB (stepDefineStr v) s := by
  intro s
  induction s with
  | nil => rfl
  | cons c cs ih =>
    simp only [hasMatchB, stepDefineStr_isSome u v, ih]

/-- The line contains an occurrence of one of the four directive
patterns (the choice of replacement values does not matter for
whether a pattern matches). -/
def lineHasDirective (l : Str) : Bool :=
  hasMatchB (stepDefineNat majorPat 0) l || hasMatchB (stepDefineNat minorPat 0) l ||
  hasMatchB (stepDefineNat patchPat 0) l || hasMatchB (stepDefineStr []) l

example : lineHasDirective "#define PROJECT_VERSION_MAJOR ٥".data = true := by
  decide

example : scan (stepDefineNat majorPat 7)
    "#define PROJECT_VERSION_MAJOR ٥".data
    = "#define PROJECT_VERSION_MAJOR 7".data := by
  decide

/-- Line substitution distributes over the lines for a numeric
directive pattern, unconditionally. -/
theorem splitNl_scan_nat (pat : Str) (k : Nat) (h1 : '\n' ∉ pat)
    (h2 : pat ≠ []) (s : Str) :
    splitNl (scan (stepDefineNat pat k) s)
      = (splitNl s).map (scan (stepDefineNat pat k)) := by
  apply splitNl_scan _ ?_ s.length s le_rfl
  · intro t ht
    exact stepDefineNat_safe pat k h1 h2 t
  · simp only [stepDefineNat]
    rw [if_neg]
    intro hx
    exact h2 (List.prefix_nil.mp (List.isPrefixOf_iff_prefix.mp hx))

/-- C5 counterexample: on a constants file whose string directive
spans two lines, the substitution collapses the match, and the second
line (which contains no directive pattern) is not preserved: the
output has a single line. -/
theorem update_version_h_frame_cex :
    lineHasDirective "keep me\"".data = false ∧
    splitNl "#define PROJECT_VERSION_STRING \"1.0.0\nkeep me\"".data
      = ["#define PROJECT_VERSION_STRING \"1.0.0".data, "keep me\"".data] ∧
    splitNl (update_version_h_content 2 0 0 "2.0.0".data
        "#define PROJECT_VERSION_STRING \"1.0.0\nkeep me\"".data)
      = ["#define PROJECT_VERSION_STRING \"2.0.0\"".data] := by
  refine ⟨by decide, by decide, by decide⟩

/-- C5 (amended): when the new version string has no newline and no
string directive match spans a newline once the numeric substitutions
are done (the numeric patterns themselves can never span lines), the
rewrite of the constants file preserves the line count, and every line
that contains none of the four directive patterns is byte-identical
before and after. -/
theorem update_version_h_line_frame (ma mi pa : Nat) (v content : Str)
    (hv : ('\n' : Char) ∉ v)
    (hml : noMultilineStringMatch
      (scan (stepDefineNat patchPat pa)
        (scan (stepDefineNat minorPat mi)
          (scan (stepDefineNat majorPat ma) content))) = true) :
    (splitNl (update_version_h_content ma mi pa v content)).length
      = (splitNl content).length ∧
    (∀ (i : Nat) (l : Str), (splitNl content)[i]? = some l → lineHasDirective l = false →
      (splitNl (update_version_h_content ma mi pa v content))[i]? = some l) := by
  have d1 := splitNl_scan_nat majorPat ma (by decide) (by decide) content
  have d2 := splitNl_scan_nat minorPat mi (by decide) (by decide)
    (scan (stepDefineNat majorPat ma) content)
  have d3 := splitNl_scan_nat patchPat pa (by decide) (by decide)
    (scan (stepDefineNat minorPat mi) (scan (stepDefineNat majorPat ma) content))
  have d4 : splitNl (update_version_h_content ma mi pa v content)
      = (splitNl (scan (stepDefineNat patchPat pa)
          (scan (stepDefineNat minorPat mi)
            (scan (stepDefineNat majorPat ma) content)))).map
        (scan (stepDefineStr v)) := by
    apply splitNl_scan _ rfl _ _ le_rfl
    intro t ht
    exact stepDefineStr_safe hv (noML_suffix hml ht)
  have dall : splitNl (update_version_h_content ma mi pa v content)
      = (splitNl content).map (fun l =>
          scan (stepDefineStr v) (scan (stepDefineNat patchPat pa)
            (scan (stepDefineNat minorPat mi)
              (scan (stepDefineNat majorPat ma) l)))) := by
    rw [d4, d3, d2, d1, List.map_map, List.map_map, List.map_map]
    rfl
  constructor
  · rw [dall, List.length_map]
  · intro i l hget hno
    rw [dall, List.getElem?_map, hget]
    simp only [lineHasDirective, Bool.or_eq_false_iff] at hno
    obtain ⟨⟨⟨hn1, hn2⟩, hn3⟩, hn4⟩ := hno
    have h1 : hasMatchB (stepDefineNat majorPat ma) l = false := by
      rw [hasMatchB_stepDefineNat majorPat ma 0]
      exact hn1
    have h2 : hasMatchB (stepDefineNat minorPat mi) l = false := by
      rw [hasMatchB_stepDefineNat minorPat mi 0]
      exact hn2
    have h3 : hasMatchB (stepDefineNat patchPat pa) l = false := by
      rw [hasMatchB_stepDefineNat patchPat pa 0]
      exact hn3
    have h4 : hasMatchB (stepDefineStr v) l = false := by
      rw [hasMatchB_stepDefineStr v []]
      exact hn4
    simp only [Option.map_some']
    rw [scan_id_of_no_match h1, scan_id_of_no_match h2,
      scan_id_of_no_match h3, scan_id_of_no_match h4]

set_option maxRecDepth 8000 in
/-- Witness for C5 (amended) on the sample constants file: the final
empty line (which contains no directive) is preserved at its index and
the line count is unchanged. -/
theorem update_version_h_line_frame_witness :
    (splitNl (update_version_h_content 2 0 0 "2.0.0".data sampleVersionH)).length
      = (splitNl sampleVersionH).length ∧
    (splitNl sampleVersionH)[4]? = some [] ∧
    lineHasDirective [] = false ∧
    (splitNl (update_version_h_content 2 0 0 "2.0.0".data sampleVersionH))[4]?
      = some [] := by
  have hh := update_version_h_line_frame 2 0 0 "2.0.0".data sampleVersionH
    (by decide) (by decide)
  exact ⟨hh.1, by decide, by decide, hh.2 4 [] (by decide) (by decide)⟩
